import Mathlib

/-!
Shallow embedding of the algebraic and encoding core of the `ml-kem` crate
(`src/algebra.rs`, `src/encode.rs`), together with proofs of the quantified
properties stated in its specification.

Machine integers are modelled as `Nat` with explicit wrap-around (`% 2^w`)
wherever the Rust code relies on truncation or wrapping; polynomial state is
modelled as functions `Nat → Nat` (only indices `< 256` are meaningful) and
the imperative loops as `List.foldl` over the same index ranges the source
iterates.
-/

namespace MLKem

/-- `FieldElement::Q = 3329`, the ML-KEM prime modulus. -/
def Q : Nat := 3329

/-- `FieldElement::BARRETT_SHIFT = 24`. -/
def BARRETT_SHIFT : Nat := 24

/-- `FieldElement::BARRETT_MULTIPLIER = (1 << 24) / Q` (= 5039). -/
def BARRETT_MULTIPLIER : Nat := (1 <<< BARRETT_SHIFT) / Q

/-- `FieldElement::small_reduce`: fast reduction for `x < 2*Q`
(`if x < Self::Q { x } else { x - Self::Q }`). -/
def small_reduce (x : Nat) : Nat := if x < Q then x else x - Q

/-- The `u64` product `u64::from(x) * Self::BARRETT_MULTIPLIER` computed inside
`FieldElement::barrett_reduce`. -/
def barrettProduct (x : Nat) : Nat := x * BARRETT_MULTIPLIER

/-- The quotient estimate `(product >> Self::BARRETT_SHIFT).truncate()` of
`FieldElement::barrett_reduce`; `truncate` keeps the low 32 bits. -/
def barrettQuotient (x : Nat) : Nat := (barrettProduct x >>> BARRETT_SHIFT) % 2 ^ 32

/-- The `u32` difference `x - quotient * Self::Q32` of `FieldElement::barrett_reduce`;
Rust `u32` arithmetic wraps modulo `2^32`. -/
def barrettRemainder (x : Nat) : Nat :=
  (x + (2 ^ 32 - (barrettQuotient x * Q) % 2 ^ 32)) % 2 ^ 32

/-- `FieldElement::barrett_reduce`: the remainder is truncated to `u16` and
corrected by one conditional subtraction in `small_reduce`. -/
def barrett_reduce (x : Nat) : Nat := small_reduce (barrettRemainder x % 2 ^ 16)

/-- `impl Add<FieldElement> for FieldElement`: `Self(Self::small_reduce(self.0 + rhs.0))`. -/
def fieldAdd (a b : Nat) : Nat := small_reduce (a + b)

/-- `impl Sub<FieldElement> for FieldElement`:
`Self(Self::small_reduce(self.0 + Self::Q - rhs.0))`. -/
def fieldSub (a b : Nat) : Nat := small_reduce (a + Q - b)

/-- `impl Mul<FieldElement> for FieldElement`: widen to `u32`, multiply, Barrett-reduce. -/
def fieldMul (a b : Nat) : Nat := barrett_reduce (a * b)

theorem small_reduce_eq_mod {x : Nat} (h : x < 2 * Q) : small_reduce x = x % Q := by
  unfold small_reduce Q at *
  split <;> omega

theorem small_reduce_lt {x : Nat} (h : x < 2 * Q) : small_reduce x < Q := by
  rw [small_reduce_eq_mod h]
  exact Nat.mod_lt _ (by norm_num [Q])

theorem Q_eq : Q = 3329 := rfl

/-- The truncation of the Barrett quotient estimate to `u32` is lossless on `u32` inputs. -/
theorem barrettQuotient_eq {x : Nat} (h : x < 2 ^ 32) :
    barrettQuotient x = x * 5039 / 2 ^ 24 := by
  have hmul : BARRETT_MULTIPLIER = 5039 := by decide
  unfold barrettQuotient barrettProduct BARRETT_SHIFT
  rw [hmul, Nat.shiftRight_eq_div_pow]
  apply Nat.mod_eq_of_lt
  have h1 : x * 5039 / 2 ^ 24 ≤ 2 ^ 32 * 5039 / 2 ^ 24 :=
    Nat.div_le_div_right (Nat.mul_le_mul_right _ (by omega))
  calc x * 5039 / 2 ^ 24 ≤ 2 ^ 32 * 5039 / 2 ^ 24 := h1
    _ < 2 ^ 32 := by norm_num

/-- Core analysis of the Barrett quotient estimate: on inputs below `2*Q^2` it is
either the true quotient or one less. -/
theorem barrettQuotient_bounds {x : Nat} (h : x < 2 * Q ^ 2) :
    barrettQuotient x ≤ x / Q ∧ x / Q ≤ barrettQuotient x + 1 := by
  rw [Q_eq] at *
  norm_num at h
  rw [barrettQuotient_eq (by omega)]
  have h1 := Nat.div_add_mod (x * 5039) (2 ^ 24)
  have h2 : x * 5039 % 2 ^ 24 < 2 ^ 24 := Nat.mod_lt _ (by norm_num)
  have h3 := Nat.div_add_mod x 3329
  have h4 : x % 3329 < 3329 := Nat.mod_lt _ (by norm_num)
  norm_num at h1 h2 ⊢
  omega

/-- The wrapping `u32` subtraction in `barrett_reduce` does not actually wrap, and the
remainder fits well inside `u16` and below `2*Q`. -/
theorem barrettRemainder_eq {x : Nat} (h : x < 2 * Q ^ 2) :
    barrettRemainder x = x - barrettQuotient x * Q ∧
      x - barrettQuotient x * Q < 2 * Q ∧
      (x - barrettQuotient x * Q) % Q = x % Q := by
  obtain ⟨hle, hge⟩ := barrettQuotient_bounds h
  rw [Q_eq] at *
  norm_num at h
  have h3 := Nat.div_add_mod x 3329
  have h4 : x % 3329 < 3329 := Nat.mod_lt _ (by norm_num)
  unfold barrettRemainder
  rw [Q_eq]
  omega

/-- Barrett reduction is exact on every input below `2*Q^2`. -/
theorem barrett_reduce_eq_mod {x : Nat} (h : x < 2 * Q ^ 2) :
    barrett_reduce x = x % Q := by
  obtain ⟨h1, h2, h3⟩ := barrettRemainder_eq h
  unfold barrett_reduce
  rw [h1]
  have hsmall : (x - barrettQuotient x * Q) % 2 ^ 16 = x - barrettQuotient x * Q := by
    apply Nat.mod_eq_of_lt
    rw [Q_eq] at h2 ⊢
    omega
  rw [hsmall, small_reduce_eq_mod h2, h3]

theorem barrett_reduce_lt {x : Nat} (h : x < 2 * Q ^ 2) : barrett_reduce x < Q := by
  rw [barrett_reduce_eq_mod h]
  exact Nat.mod_lt _ (by norm_num [Q])

theorem fieldAdd_eq_mod {a b : Nat} (ha : a < Q) (hb : b < Q) :
    fieldAdd a b = (a + b) % Q := small_reduce_eq_mod (by omega)

theorem fieldAdd_lt {a b : Nat} (ha : a < Q) (hb : b < Q) : fieldAdd a b < Q :=
  small_reduce_lt (by omega)

theorem fieldSub_eq_mod {a b : Nat} (ha : a < Q) (hb : b < Q) :
    fieldSub a b = (a + Q - b) % Q := small_reduce_eq_mod (by omega)

theorem fieldSub_lt {a b : Nat} (ha : a < Q) (hb : b < Q) : fieldSub a b < Q :=
  small_reduce_lt (by omega)

theorem fieldMul_eq_mod {a b : Nat} (ha : a < Q) (hb : b < Q) :
    fieldMul a b = a * b % Q := by
  have : a * b < 2 * Q ^ 2 := by
    have := Nat.mul_lt_mul_of_lt_of_le ha (Nat.le_of_lt hb) (by norm_num [Q])
    nlinarith [sq_nonneg (Q : ℤ)]
  exact barrett_reduce_eq_mod this

theorem fieldMul_lt {a b : Nat} (ha : a < Q) (hb : b < Q) : fieldMul a b < Q := by
  rw [fieldMul_eq_mod ha hb]
  exact Nat.mod_lt _ (by norm_num [Q])

/-- The frozen table `ZETA_POW_BITREV[i] = zeta^{BitRev_7(i)} mod q`, `zeta = 17`,
transcribed from `algebra.rs`. -/
def ZETA_POW_BITREV : List Nat := [
  1, 1729, 2580, 3289, 2642, 630, 1897, 848, 1062, 1919, 193, 797, 2786, 3260, 569, 1746,
  296, 2447, 1339, 1476, 3046, 56, 2240, 1333, 1426, 2094, 535, 2882, 2393, 2879, 1974, 821,
  289, 331, 3253, 1756, 1197, 2304, 2277, 2055, 650, 1977, 2513, 632, 2865, 33, 1320, 1915,
  2319, 1435, 807, 452, 1438, 2868, 1534, 2402, 2647, 2617, 1481, 648, 2474, 3110, 1227, 910,
  17, 2761, 583, 2649, 1637, 723, 2288, 1100, 1409, 2662, 3281, 233, 756, 2156, 3015, 3050,
  1703, 1651, 2789, 1789, 1847, 952, 1461, 2687, 939, 2308, 2437, 2388, 733, 2337, 268, 641,
  1584, 2298, 2037, 3220, 375, 2549, 2090, 1645, 1063, 319, 2773, 757, 2099, 561, 2466, 2594,
  2804, 1092, 403, 1026, 1143, 2150, 2775, 886, 1722, 1212, 1874, 1029, 2110, 2935, 885, 2154]

/-- The frozen table `GAMMA[i] = zeta^{2*BitRev_7(i)+1} mod q`, transcribed from
`algebra.rs`. -/
def GAMMA : List Nat := [
  17, 3312, 2761, 568, 583, 2746, 2649, 680, 1637, 1692, 723, 2606, 2288, 1041, 1100, 2229,
  1409, 1920, 2662, 667, 3281, 48, 233, 3096, 756, 2573, 2156, 1173, 3015, 314, 3050, 279,
  1703, 1626, 1651, 1678, 2789, 540, 1789, 1540, 1847, 1482, 952, 2377, 1461, 1868, 2687, 642,
  939, 2390, 2308, 1021, 2437, 892, 2388, 941, 733, 2596, 2337, 992, 268, 3061, 641, 2688,
  1584, 1745, 2298, 1031, 2037, 1292, 3220, 109, 375, 2954, 2549, 780, 2090, 1239, 1645, 1684,
  1063, 2266, 319, 3010, 2773, 556, 757, 2572, 2099, 1230, 561, 2768, 2466, 863, 2594, 735,
  2804, 525, 1092, 2237, 403, 2926, 1026, 2303, 1143, 2186, 2150, 1179, 2775, 554, 886, 2443,
  1722, 1607, 1212, 2117, 1874, 1455, 1029, 2300, 2110, 1219, 2935, 394, 885, 2444, 2154, 1175]

/-- Table lookup `ZETA_POW_BITREV[k]` (the code only accesses indices `1..=127`). -/
def zetaPB (k : Nat) : Nat := ZETA_POW_BITREV.getD k 0

/-- Table lookup `GAMMA[i]` (the code only accesses indices `0..=127`). -/
def gamma (i : Nat) : Nat := GAMMA.getD i 0

theorem zetaPB_lt (k : Nat) : zetaPB k < Q := by
  rcases Nat.lt_or_ge k 128 with h | h
  · have hall : ∀ j, j < 128 → ZETA_POW_BITREV.getD j 0 < 3329 := by decide
    exact hall k h
  · unfold zetaPB
    rw [List.getD_eq_default]
    · decide
    · calc ZETA_POW_BITREV.length = 128 := by rfl
        _ ≤ k := h

theorem gamma_lt (i : Nat) : gamma i < Q := by
  rcases Nat.lt_or_ge i 128 with h | h
  · have hall : ∀ j, j < 128 → GAMMA.getD j 0 < 3329 := by decide
    exact hall i h
  · unfold gamma
    rw [List.getD_eq_default]
    · decide
    · calc GAMMA.length = 128 := by rfl
        _ ≤ i := h

/-- Algorithm 11, `FieldElement::base_case_multiply`: multiplication in
`Z_q[X]/(X^2 - GAMMA[i])`, with the products widened to `u32` and reduced via Barrett. -/
def base_case_multiply (a0 a1 b0 b1 : Nat) (i : Nat) : Nat × Nat :=
  let g := gamma i
  let b1g := barrett_reduce (b1 * g)
  let c0 := barrett_reduce (a0 * b0 + a1 * b1g)
  let c1 := barrett_reduce (a0 * b1 + a1 * b0)
  (c0, c1)

theorem mul_lt_q_sq {a b : Nat} (ha : a < Q) (hb : b < Q) : a * b ≤ 3328 * 3328 := by
  rw [Q_eq] at ha hb
  exact Nat.mul_le_mul (by omega) (by omega)

/-- Exact characterization of `base_case_multiply` on canonical inputs, including the
bound showing its intermediate 32-bit sums stay below `2*Q^2`. -/
theorem base_case_multiply_eq {a0 a1 b0 b1 : Nat} (i : Nat)
    (ha0 : a0 < Q) (ha1 : a1 < Q) (hb0 : b0 < Q) (hb1 : b1 < Q) :
    a0 * b0 + a1 * (b1 * gamma i % Q) < 2 * Q ^ 2 ∧
    a0 * b1 + a1 * b0 < 2 * Q ^ 2 ∧
    base_case_multiply a0 a1 b0 b1 i =
      ((a0 * b0 + a1 * (b1 * gamma i % Q)) % Q, (a0 * b1 + a1 * b0) % Q) := by
  have hQ2 : 2 * Q ^ 2 = 22164482 := by rw [Q_eq]; norm_num
  have hg := gamma_lt i
  have h1 : b1 * gamma i ≤ 3328 * 3328 := mul_lt_q_sq hb1 hg
  have hb1g : barrett_reduce (b1 * gamma i) = b1 * gamma i % Q :=
    barrett_reduce_eq_mod (by omega)
  have hmodlt : b1 * gamma i % Q < Q := Nat.mod_lt _ (by rw [Q_eq]; norm_num)
  have h2 : a0 * b0 ≤ 3328 * 3328 := mul_lt_q_sq ha0 hb0
  have h3 : a1 * (b1 * gamma i % Q) ≤ 3328 * 3328 := mul_lt_q_sq ha1 hmodlt
  have h4 : a0 * b1 ≤ 3328 * 3328 := mul_lt_q_sq ha0 hb1
  have h5 : a1 * b0 ≤ 3328 * 3328 := mul_lt_q_sq ha1 hb0
  refine ⟨by omega, by omega, ?_⟩
  simp only [base_case_multiply]
  rw [hb1g, barrett_reduce_eq_mod (by omega), barrett_reduce_eq_mod (by omega)]

/-- C7: for every `x < Q^2`, `barrett_reduce` (shift 24, multiplier 5039) returns the
canonical representative `x % Q`; the quotient pre-estimate is off by at most one, the
remainder stays below `2*Q`, and the single conditional subtraction of `small_reduce`
therefore suffices. -/
theorem barrett_reduce_correct {x : Nat} (h : x < Q ^ 2) :
    barrett_reduce x = x % Q ∧ barrett_reduce x < Q ∧
    BARRETT_SHIFT = 24 ∧ BARRETT_MULTIPLIER = 5039 ∧
    barrettQuotient x ≤ x / Q ∧ x / Q ≤ barrettQuotient x + 1 ∧
    barrettRemainder x < 2 * Q ∧
    barrett_reduce x = small_reduce (barrettRemainder x % 2 ^ 16) := by
  have h2 : x < 2 * Q ^ 2 := by omega
  obtain ⟨hle, hge⟩ := barrettQuotient_bounds h2
  obtain ⟨hrem, hlt, _⟩ := barrettRemainder_eq h2
  exact ⟨barrett_reduce_eq_mod h2, barrett_reduce_lt h2, rfl, by decide,
    hle, hge, by rw [hrem]; exact hlt, rfl⟩

/-- Witness for C7 at the concrete input `x = 11075584 = 3328^2`. -/
theorem barrett_reduce_correct_witness :
    barrett_reduce 11075584 = 11075584 % Q ∧ barrett_reduce 11075584 < Q ∧
    BARRETT_SHIFT = 24 ∧ BARRETT_MULTIPLIER = 5039 ∧
    barrettQuotient 11075584 ≤ 11075584 / Q ∧
    11075584 / Q ≤ barrettQuotient 11075584 + 1 ∧
    barrettRemainder 11075584 < 2 * Q ∧
    barrett_reduce 11075584 = small_reduce (barrettRemainder 11075584 % 2 ^ 16) :=
  barrett_reduce_correct (by rw [Q_eq]; norm_num)

/-- C10: `barrett_reduce` is in fact exact on the whole range `x < 2*Q^2`, which covers
the two 32-bit sums formed inside `base_case_multiply` (each can exceed `Q^2` but stays
below `2*Q^2`), so the single conditional subtraction still canonicalizes them. -/
theorem barrett_reduce_wide {x : Nat} (h : x < 2 * Q ^ 2) :
    barrett_reduce x = x % Q ∧
    ∀ a0 a1 b0 b1 i : Nat, a0 < Q → a1 < Q → b0 < Q → b1 < Q →
      a0 * b0 + a1 * (b1 * gamma i % Q) < 2 * Q ^ 2 ∧
      a0 * b1 + a1 * b0 < 2 * Q ^ 2 ∧
      base_case_multiply a0 a1 b0 b1 i =
        ((a0 * b0 + a1 * (b1 * gamma i % Q)) % Q, (a0 * b1 + a1 * b0) % Q) := by
  exact ⟨barrett_reduce_eq_mod h, fun a0 a1 b0 b1 i ha0 ha1 hb0 hb1 =>
    base_case_multiply_eq i ha0 ha1 hb0 hb1⟩

/-- Witness for C10 at `x = 22164481 = 2*Q^2 - 1` and concrete base-case inputs. -/
theorem barrett_reduce_wide_witness :
    barrett_reduce 22164481 = 22164481 % Q ∧
    ∀ a0 a1 b0 b1 i : Nat, a0 < Q → a1 < Q → b0 < Q → b1 < Q →
      a0 * b0 + a1 * (b1 * gamma i % Q) < 2 * Q ^ 2 ∧
      a0 * b1 + a1 * b0 < 2 * Q ^ 2 ∧
      base_case_multiply a0 a1 b0 b1 i =
        ((a0 * b0 + a1 * (b1 * gamma i % Q)) % Q, (a0 * b1 + a1 * b0) % Q) :=
  barrett_reduce_wide (by rw [Q_eq]; norm_num)

/-! ### Byte codec (`encode.rs`) -/

/-- Modelled from the spec: `D::ValueStep = lcm(d,8)/d` values per chunk (§4.8).  The
`EncodingSize` trait supplying this constant lives in `param.rs`, which is not among
the provided sources. -/
def valStep (d : Nat) : Nat := Nat.lcm d 8 / d

/-- Modelled from the spec: `D::ByteStep = valStep d * d / 8` bytes per chunk (§4.8). -/
def byteStep (d : Nat) : Nat := valStep d * d / 8

/-- The chunk accumulator of `byte_encode`: `x |= u128::from(vj.0) << (D::USIZE * j)`
over the `valStep d` values of chunk `c`. -/
def encodeChunkX (d : Nat) (vals : Nat → Nat) (c : Nat) : Nat :=
  (List.range (valStep d)).foldl (fun x j => x ||| (vals (valStep d * c + j) <<< (d * j))) 0

/-- Algorithm 4, `byte_encode::<D>`: byte `i` belongs to chunk `i / byteStep d` and is
the corresponding byte of `x.to_le_bytes()`. -/
def byte_encode (d : Nat) (vals : Nat → Nat) : Nat → Nat := fun i =>
  (encodeChunkX d vals (i / byteStep d) >>> (8 * (i % byteStep d))) % 256

/-- The chunk accumulator of `byte_decode`: `u128::from_le_bytes(xb)` where `xb` holds
the `byteStep d` bytes of chunk `c` (the remaining buffer bytes are zero). -/
def decodeChunkX (d : Nat) (bytes : Nat → Nat) (c : Nat) : Nat :=
  (List.range (byteStep d)).foldl (fun x k => x + bytes (byteStep d * c + k) * 2 ^ (8 * k)) 0

/-- Algorithm 5, `byte_decode::<D>`: extract the `j`-th `d`-bit field of the chunk
accumulator (`truncate` to `u16`, then `& mask`), and for `D::USIZE == 12` only,
reduce it mod `Q`. -/
def byte_decode (d : Nat) (bytes : Nat → Nat) : Nat → Nat := fun n =>
  let c := n / valStep d
  let j := n % valStep d
  let x := decodeChunkX d bytes c
  let val := (x >>> (d * j)) % 2 ^ 16
  let masked := val &&& ((1 <<< d) - 1)
  if d = 12 then masked % Q else masked

theorem foldl_add_eq_sum (g : Nat → Nat) :
    ∀ m a, (List.range m).foldl (fun x k => x + g k) a = a + ∑ k ∈ Finset.range m, g k := by
  intro m
  induction m with
  | zero => simp
  | succ m ih =>
    intro a
    rw [List.range_succ, List.foldl_append, ih, Finset.sum_range_succ]
    simp [Nat.add_assoc]

/-- The OR-accumulation of `byte_encode` builds the little-endian base-`2^d` value of
the chunk, which stays below `2^(d*m)`. -/
theorem foldl_lor_shift (d : Nat) (f : Nat → Nat) :
    ∀ m, (∀ j, j < m → f j < 2 ^ d) →
      (List.range m).foldl (fun x j => x ||| (f j <<< (d * j))) 0 =
        ∑ j ∈ Finset.range m, f j * 2 ^ (d * j) ∧
      (∑ j ∈ Finset.range m, f j * 2 ^ (d * j)) < 2 ^ (d * m) := by
  intro m
  induction m with
  | zero => simp
  | succ m ih =>
    intro hf
    obtain ⟨ihe, ihb⟩ := ih (fun j hj => hf j (Nat.lt_succ_of_lt hj))
    have hpow : 2 ^ (d * (m + 1)) = 2 ^ d * 2 ^ (d * m) := by
      rw [← pow_add]
      ring_nf
    constructor
    · rw [List.range_succ, List.foldl_append, ihe, Finset.sum_range_succ]
      simp only [List.foldl_cons, List.foldl_nil]
      rw [Nat.shiftLeft_eq, Nat.lor_comm, mul_comm (f m) (2 ^ (d * m)),
        ← Nat.mul_add_lt_is_or ihb (f m), mul_comm (2 ^ (d * m)) (f m)]
      omega
    · rw [Finset.sum_range_succ]
      have h1 : f m + 1 ≤ 2 ^ d := hf m (Nat.lt_succ_self m)
      calc (∑ j ∈ Finset.range m, f j * 2 ^ (d * j)) + f m * 2 ^ (d * m)
          < (f m + 1) * 2 ^ (d * m) := by
            have : (f m + 1) * 2 ^ (d * m) = f m * 2 ^ (d * m) + 2 ^ (d * m) := by ring
            omega
        _ ≤ 2 ^ d * 2 ^ (d * m) := Nat.mul_le_mul_right _ h1
        _ = 2 ^ (d * (m + 1)) := hpow.symm

/-- Reassembling little-endian bytes recovers the accumulator modulo `2^(8*w)`. -/
theorem sum_le_bytes (X : Nat) :
    ∀ w, (∑ k ∈ Finset.range w, (X / 2 ^ (8 * k) % 256) * 2 ^ (8 * k)) = X % 2 ^ (8 * w) := by
  intro w
  induction w with
  | zero => simp [Nat.mod_one]
  | succ w ih =>
    rw [Finset.sum_range_succ, ih]
    have h1 : (2 : Nat) ^ (8 * (w + 1)) = 2 ^ (8 * w) * 256 := by
      rw [show 8 * (w + 1) = 8 * w + 8 by ring, pow_add]
      norm_num
    rw [h1, Nat.mod_mul]
    ring

/-- Extracting the `t`-th `d`-bit field of a little-endian base-`2^d` value. -/
theorem sum_extract (d : Nat) :
    ∀ t v (f : Nat → Nat), t < v → (∀ j, j < v → f j < 2 ^ d) →
      (∑ j ∈ Finset.range v, f j * 2 ^ (d * j)) / 2 ^ (d * t) % 2 ^ d = f t := by
  intro t
  induction t with
  | zero =>
    intro v f hv hf
    obtain ⟨v', rfl⟩ : ∃ v', v = v' + 1 := ⟨v - 1, by omega⟩
    rw [Finset.sum_range_succ']
    simp only [Nat.mul_zero, pow_zero, Nat.mul_one, Nat.div_one]
    have hterm : ∀ j, f (j + 1) * 2 ^ (d * (j + 1)) = 2 ^ d * (f (j + 1) * 2 ^ (d * j)) := by
      intro j
      rw [show d * (j + 1) = d * j + d by ring, pow_add]
      ring
    rw [Finset.sum_congr rfl (fun j _ => hterm j), ← Finset.mul_sum]
    rw [Nat.add_comm, Nat.add_mul_mod_self_left]
    exact Nat.mod_eq_of_lt (hf 0 (by omega))
  | succ t iht =>
    intro v f hv hf
    obtain ⟨v', rfl⟩ : ∃ v', v = v' + 1 := ⟨v - 1, by omega⟩
    rw [Finset.sum_range_succ']
    simp only [Nat.mul_zero, pow_zero, Nat.mul_one]
    have hterm : ∀ j, f (j + 1) * 2 ^ (d * (j + 1)) = 2 ^ d * (f (j + 1) * 2 ^ (d * j)) := by
      intro j
      rw [show d * (j + 1) = d * j + d by ring, pow_add]
      ring
    rw [Finset.sum_congr rfl (fun j _ => hterm j), ← Finset.mul_sum]
    have hsplit : (2 : Nat) ^ (d * (t + 1)) = 2 ^ d * 2 ^ (d * t) := by
      rw [show d * (t + 1) = d + d * t by ring, pow_add]
    rw [hsplit, ← Nat.div_div_eq_div_mul]
    have hdiv : (2 ^ d * (∑ j ∈ Finset.range v', f (j + 1) * 2 ^ (d * j)) + f 0) / 2 ^ d =
        ∑ j ∈ Finset.range v', f (j + 1) * 2 ^ (d * j) := by
      rw [Nat.add_comm, Nat.add_mul_div_left _ _ (Nat.pos_pow_of_pos d (by omega)),
        Nat.div_eq_of_lt (hf 0 (by omega))]
      omega
    rw [hdiv]
    exact iht v' (fun j => f (j + 1)) (by omega) (fun j hj => hf (j + 1) (by omega))

/-- Generic decode-after-encode round trip, for any width satisfying the chunk-size
relations of §4.8. -/
theorem byte_decode_encode_generic (d : Nat) (_hd : 0 < d) (hd16 : d ≤ 16)
    (hvw : d * valStep d = 8 * byteStep d) (hw : 0 < byteStep d) (hvd : valStep d ∣ 256)
    (vals : Nat → Nat) (hv : ∀ i, i < 256 → vals i < 2 ^ d)
    (hq : d = 12 → ∀ i, i < 256 → vals i < Q)
    (i : Nat) (hi : i < 256) :
    byte_decode d (byte_encode d vals) i = vals i := by
  have hv0 : 0 < valStep d := by
    by_contra h
    interval_cases h' : valStep d
    · omega
  set v := valStep d with hvdef
  set w := byteStep d with hwdef
  set c := i / v with hcdef
  have hc : v * c + v ≤ 256 := by
    have h1 : c < 256 / v := Nat.div_lt_div_of_lt_of_dvd hvd hi
    have h2 : v * (256 / v) = 256 := Nat.mul_div_cancel' hvd
    calc v * c + v = v * (c + 1) := by ring
      _ ≤ v * (256 / v) := Nat.mul_le_mul_left _ (by omega)
      _ = 256 := h2
  have hchunk : ∀ j, j < v → vals (v * c + j) < 2 ^ d := fun j hj => hv _ (by omega)
  obtain ⟨hXeq, hXlt⟩ := foldl_lor_shift d (fun j => vals (v * c + j)) v hchunk
  set X := encodeChunkX d vals c with hXdef
  have hXe : X = ∑ j ∈ Finset.range v, vals (v * c + j) * 2 ^ (d * j) := hXeq
  have hXb : X < 2 ^ (8 * w) := by
    rw [hXe, ← hvw]
    exact hXlt
  have hbytes : ∀ k, k < w → byte_encode d vals (w * c + k) = X / 2 ^ (8 * k) % 256 := by
    intro k hk
    unfold byte_encode
    rw [← hwdef, Nat.mul_add_div hw, Nat.div_eq_of_lt hk, Nat.add_zero,
      Nat.mul_add_mod, Nat.mod_eq_of_lt hk, Nat.shiftRight_eq_div_pow, ← hXdef]
  have hdecX : decodeChunkX d (byte_encode d vals) c = X := by
    unfold decodeChunkX
    rw [← hwdef, foldl_add_eq_sum, Nat.zero_add,
      Finset.sum_congr rfl (fun k hk => by rw [hbytes k (Finset.mem_range.mp hk)]),
      sum_le_bytes, Nat.mod_eq_of_lt hXb]
  have hcc : i / valStep d = c := rfl
  have hjj : i % valStep d = i % v := rfl
  have hextract : X / 2 ^ (d * (i % v)) % 2 ^ d = vals i := by
    rw [hXe, sum_extract d (i % v) v (fun j => vals (v * c + j)) (Nat.mod_lt _ hv0) hchunk]
    congr 1
    exact Nat.div_add_mod i v
  unfold byte_decode
  simp only [← hvdef, hcc, hjj, hdecX]
  rw [Nat.shiftRight_eq_div_pow]
  have hmask : (1 <<< d) - 1 = 2 ^ d - 1 := by
    rw [Nat.shiftLeft_eq, Nat.one_mul]
  rw [hmask, Nat.and_pow_two_sub_one_eq_mod,
    Nat.mod_mod_of_dvd _ (pow_dvd_pow 2 hd16), hextract]
  split
  · next h12 => exact Nat.mod_eq_of_lt (hq h12 i hi)
  · rfl

/-- C5: for every supported width `d ∈ {1,4,5,6,10,11,12}` and every polynomial whose
256 coefficients lie in `[0, 2^d)` (in `[0, Q)` for `d = 12`), decoding the encoding
returns the polynomial exactly. -/
theorem byte_decode_byte_encode_roundtrip (d : Nat)
    (hd : d = 1 ∨ d = 4 ∨ d = 5 ∨ d = 6 ∨ d = 10 ∨ d = 11 ∨ d = 12)
    (vals : Nat → Nat)
    (hv : ∀ i, i < 256 → vals i < if d = 12 then Q else 2 ^ d) :
    ∀ i, i < 256 → byte_decode d (byte_encode d vals) i = vals i := by
  intro i hi
  rcases hd with rfl | rfl | rfl | rfl | rfl | rfl | rfl
  · exact byte_decode_encode_generic 1 (by decide) (by decide) (by decide) (by decide)
      (by decide) vals (by simpa using hv) (by omega) i hi
  · exact byte_decode_encode_generic 4 (by decide) (by decide) (by decide) (by decide)
      (by decide) vals (by simpa using hv) (by omega) i hi
  · exact byte_decode_encode_generic 5 (by decide) (by decide) (by decide) (by decide)
      (by decide) vals (by simpa using hv) (by omega) i hi
  · exact byte_decode_encode_generic 6 (by decide) (by decide) (by decide) (by decide)
      (by decide) vals (by simpa using hv) (by omega) i hi
  · exact byte_decode_encode_generic 10 (by decide) (by decide) (by decide) (by decide)
      (by decide) vals (by simpa using hv) (by omega) i hi
  · exact byte_decode_encode_generic 11 (by decide) (by decide) (by decide) (by decide)
      (by decide) vals (by simpa using hv) (by omega) i hi
  · refine byte_decode_encode_generic 12 (by decide) (by decide) (by decide) (by decide)
      (by decide) vals (fun j hj => ?_) (fun _ j hj => by simpa [Q_eq] using hv j hj) i hi
    have := hv j hj
    simp only [Q_eq] at this
    norm_num at this
    omega

/-- Witness for C5 at width `d = 4` and the polynomial `i ↦ i % 16`. -/
theorem byte_decode_byte_encode_roundtrip_witness :
    byte_decode 4 (byte_encode 4 (fun n => n % 16)) 7 = (fun n => n % 16) 7 :=
  byte_decode_byte_encode_roundtrip 4 (by tauto) (fun n => n % 16)
    (fun i _ => by simp only [if_neg (by omega : (4:Nat) ≠ 12)]; omega) 7 (by omega)

/-- C6: width-12 decoding (and only width 12) reduces each extracted 12-bit field mod
`Q`; decoding 384 bytes of `0xFF` therefore yields `0xFFF mod 3329 = 766` everywhere. -/
theorem byte_decode_twelve_mod :
    (∀ bytes : Nat → Nat, ∀ i,
      byte_decode 12 bytes i =
        ((decodeChunkX 12 bytes (i / valStep 12) >>> (12 * (i % valStep 12))) % 2 ^ 16 &&&
          ((1 <<< 12) - 1)) % Q) ∧
    (∀ d : Nat, d ≠ 12 → ∀ bytes : Nat → Nat, ∀ i,
      byte_decode d bytes i =
        (decodeChunkX d bytes (i / valStep d) >>> (d * (i % valStep d))) % 2 ^ 16 &&&
          ((1 <<< d) - 1)) ∧
    (∀ i, i < 256 → byte_decode 12 (fun _ => 255) i = 766) := by
  refine ⟨fun bytes i => by simp [byte_decode], fun d hd12 bytes i => by simp [byte_decode, hd12], ?_⟩
  intro i hi
  have hbs : byteStep 12 = 3 := by decide
  have hvs : valStep 12 = 2 := by decide
  have hX : ∀ c, decodeChunkX 12 (fun _ => 255) c = 16777215 := by
    intro c
    unfold decodeChunkX
    rw [hbs]
    norm_num [List.range_succ]
  simp only [byte_decode, hX, hvs, if_pos rfl]
  rcases Nat.mod_two_eq_zero_or_one i with h | h <;> rw [h] <;> decide

/-- Witness for C6 at index 0. -/
theorem byte_decode_twelve_mod_witness :
    byte_decode 12 (fun _ => 255) 0 = 766 :=
  byte_decode_twelve_mod.2.2 0 (by omega)

/-! ### CBD sampling (`Polynomial::sample_cbd`) -/

/-- The lookup table `Polynomial::ONES`: `ONES[i][j] = popcount(i) - popcount(j) mod Q`,
transcribed from `algebra.rs`. -/
def ONES : List (List Nat) := [
  [0, 3328, 3328, 3327, 3328, 3327, 3327, 3326],
  [1, 0, 0, 3328, 0, 3328, 3328, 3327],
  [1, 0, 0, 3328, 0, 3328, 3328, 3327],
  [2, 1, 1, 0, 1, 0, 0, 3328],
  [1, 0, 0, 3328, 0, 3328, 3328, 3327],
  [2, 1, 1, 0, 1, 0, 0, 3328],
  [2, 1, 1, 0, 1, 0, 0, 3328],
  [3, 2, 2, 1, 2, 1, 1, 0]]

/-- The doubly-indexed access `Self::ONES[x as usize][y as usize]`. -/
def onesLookup (x y : Nat) : Nat := (ONES.getD x []).getD y 0

/-- Algorithm 7, `Polynomial::sample_cbd::<Eta>`: decode the PRF output at width
`Eta::SampleSize` (modelled from the spec, §4.7: `2*eta`), split each decoded value
into its low and high `eta` bits, and look the centered difference up in `ONES`. -/
def sample_cbd (eta : Nat) (B : Nat → Nat) : Nat → Nat := fun n =>
  let val := byte_decode (2 * eta) B n
  let x := val &&& ((1 <<< eta) - 1)
  let y := val >>> eta
  onesLookup x y

/-- Binary bit-count (population count), stated as in the specification's
`popcount(x) - popcount(y) mod q` description of CBD sampling.  The fuel argument
makes the recursion structural. -/
def popcountAux : Nat → Nat → Nat
  | 0, _ => 0
  | fuel + 1, n => if n = 0 then 0 else n % 2 + popcountAux fuel (n / 2)

/-- `popcount n`: the number of set bits of `n`. -/
def popcount (n : Nat) : Nat := popcountAux n n

/-- Every `byte_decode` output is below `2^d` (below `Q` for `d = 12`). -/
theorem byte_decode_lt (d : Nat) (bytes : Nat → Nat) (n : Nat) :
    byte_decode d bytes n < if d = 12 then Q else 2 ^ d := by
  unfold byte_decode
  simp only [Nat.shiftLeft_eq, Nat.one_mul, Nat.and_pow_two_sub_one_eq_mod]
  split
  · exact Nat.mod_lt _ (by rw [Q_eq]; norm_num)
  · exact Nat.mod_lt _ (Nat.pos_pow_of_pos d (by omega))

/-- The `ONES` table agrees with the centered popcount difference on its 8×8 domain. -/
theorem onesLookup_eq_popcount_all :
    ∀ x, x < 8 → ∀ y, y < 8 → onesLookup x y = (popcount x + Q - popcount y) % Q := by
  decide

theorem onesLookup_eq_popcount {x y : Nat} (hx : x < 8) (hy : y < 8) :
    onesLookup x y = (popcount x + Q - popcount y) % Q :=
  onesLookup_eq_popcount_all x hx y hy

/-- C8: every CBD coefficient equals `popcount x - popcount y mod Q` where `x` is the
low `eta` bits and `y` the high `eta` bits of the decoded `2*eta`-bit field of the PRF
output; equivalently it is the `ONES[x][y]` table entry. -/
theorem sample_cbd_correct (eta : Nat) (heta : eta = 2 ∨ eta = 3) (B : Nat → Nat)
    (n : Nat) :
    sample_cbd eta B n =
      (popcount (byte_decode (2 * eta) B n &&& ((1 <<< eta) - 1)) + Q -
        popcount (byte_decode (2 * eta) B n >>> eta)) % Q ∧
    sample_cbd eta B n =
      onesLookup (byte_decode (2 * eta) B n &&& ((1 <<< eta) - 1))
        (byte_decode (2 * eta) B n >>> eta) := by
  have hval : byte_decode (2 * eta) B n < 2 ^ eta * 2 ^ eta := by
    have h := byte_decode_lt (2 * eta) B n
    rcases heta with rfl | rfl <;> norm_num at h ⊢ <;> omega
  have hx : byte_decode (2 * eta) B n &&& ((1 <<< eta) - 1) < 8 := by
    rw [Nat.shiftLeft_eq, Nat.one_mul, Nat.and_pow_two_sub_one_eq_mod]
    have h := Nat.mod_lt (byte_decode (2 * eta) B n)
      (y := 2 ^ eta) (Nat.pos_pow_of_pos eta (by omega))
    have h8 : (2:Nat) ^ eta ≤ 8 := by rcases heta with rfl | rfl <;> norm_num
    omega
  have hy : byte_decode (2 * eta) B n >>> eta < 8 := by
    rw [Nat.shiftRight_eq_div_pow]
    have h := Nat.div_lt_of_lt_mul hval
    have h8 : (2:Nat) ^ eta ≤ 8 := by rcases heta with rfl | rfl <;> norm_num
    omega
  exact ⟨onesLookup_eq_popcount hx hy, rfl⟩

/-- Witness for C8 at `eta = 2`, the all-zero PRF output and index 0. -/
theorem sample_cbd_correct_witness :
    sample_cbd 2 (fun _ => 0) 0 =
      (popcount (byte_decode (2 * 2) (fun _ => 0) 0 &&& ((1 <<< 2) - 1)) + Q -
        popcount (byte_decode (2 * 2) (fun _ => 0) 0 >>> 2)) % Q ∧
    sample_cbd 2 (fun _ => 0) 0 =
      onesLookup (byte_decode (2 * 2) (fun _ => 0) 0 &&& ((1 <<< 2) - 1))
        (byte_decode (2 * 2) (fun _ => 0) 0 >>> 2) :=
  sample_cbd_correct 2 (Or.inl rfl) (fun _ => 0) 0

/-! ### Uniform rejection sampling (Algorithm 6, `FieldElementReader` /
`NttPolynomial::sample_uniform`) -/

/-- The state of `FieldElementReader` (Algorithm 6, lines 4-13): the streaming XOF
(modelled as its pure byte sequence plus the number of bytes already drawn from it),
the 96-byte buffer `data`, the cursor `start`, and the cached second candidate
`next`. -/
structure FieldElementReader where
  stream : Nat → Nat
  consumed : Nat
  data : Nat → Nat
  start : Nat
  next? : Option Nat

/-- `self.xof.read(&mut self.data)`: the buffer contents after reading 96 bytes when
`consumed` bytes have been drawn before. -/
def readerFill (stream : Nat → Nat) (consumed : Nat) : Nat → Nat :=
  fun k => stream (consumed + k)

/-- `FieldElementReader::new`: zeroed state, then one initial 96-byte fill. -/
def FieldElementReader.new (stream : Nat → Nat) : FieldElementReader :=
  { stream := stream, consumed := 96, data := readerFill stream 0, start := 0,
    next? := none }

/-- The refill test at the top of the loop in `FieldElementReader::next`
(`if self.start == self.data.len() { self.xof.read(&mut self.data); self.start = 0; }`). -/
def readerRefill (r : FieldElementReader) : FieldElementReader :=
  if r.start = 96 then
    { r with
      consumed := r.consumed + 96
      data := readerFill r.stream r.consumed
      start := 0 }
  else r

/-- The `loop` of `FieldElementReader::next`, with explicit fuel: refill the buffer
when exhausted, consume three bytes, derive the candidates `d1` and `d2`, and accept
or continue. -/
def readerLoop : Nat → FieldElementReader → Option (Nat × FieldElementReader)
  | 0, _ => none
  | fuel + 1, r =>
    let r1 := readerRefill r
    let b0 := r1.data r1.start
    let b1 := r1.data (r1.start + 1)
    let b2 := r1.data (r1.start + 2)
    let r2 := { r1 with start := r1.start + 3 }
    let d1 := b0 + ((b1 &&& 0xf) <<< 8)
    let d2 := (b1 >>> 4) + (b2 <<< 4)
    if d1 < Q then
      some (d1, if d2 < Q then { r2 with next? := some d2 } else r2)
    else if d2 < Q then
      some (d2, r2)
    else
      readerLoop fuel r2

/-- `FieldElementReader::next`: deliver the cached candidate if present, otherwise
run the rejection loop. -/
def readerNext (fuel : Nat) (r : FieldElementReader) : Option (Nat × FieldElementReader) :=
  match r.next? with
  | some val => some (val, { r with next? := none })
  | none => readerLoop fuel r

/-- `NttPolynomial::sample_uniform`, the `GenericArray::generate(|_| reader.next())`
loop: draw `cnt` elements in order. -/
def sampleUniformGo (fuel : Nat) : Nat → FieldElementReader →
    Option (List Nat × FieldElementReader)
  | 0, r => some ([], r)
  | cnt + 1, r =>
    match readerNext fuel r with
    | none => none
    | some (v, r') =>
      match sampleUniformGo fuel cnt r' with
      | none => none
      | some (l, rf) => some (v :: l, rf)

/-- `NttPolynomial::sample_uniform(B)`: 256 draws from a fresh reader. -/
def sample_uniform (fuel : Nat) (stream : Nat → Nat) :
    Option (List Nat × FieldElementReader) :=
  sampleUniformGo fuel 256 (FieldElementReader.new stream)

/-- First 12-bit candidate of byte group `g`: `d1 = b0 | ((b1 & 0x0F) << 8)` over
bytes `3g, 3g+1, 3g+2` of the stream. -/
def groupD1 (stream : Nat → Nat) (g : Nat) : Nat :=
  stream (3 * g) + ((stream (3 * g + 1) &&& 0xf) <<< 8)

/-- Second 12-bit candidate of byte group `g`: `d2 = (b1 >> 4) | (b2 << 4)`. -/
def groupD2 (stream : Nat → Nat) (g : Nat) : Nat :=
  (stream (3 * g + 1) >>> 4) + (stream (3 * g + 2) <<< 4)

/-- The accepted candidates of byte group `g`, in delivery order. -/
def groupAccepted (stream : Nat → Nat) (g : Nat) : List Nat :=
  (if groupD1 stream g < Q then [groupD1 stream g] else []) ++
    (if groupD2 stream g < Q then [groupD2 stream g] else [])

/-- All accepted candidates among the first `G` byte groups of the stream. -/
def acceptedPrefix (stream : Nat → Nat) (G : Nat) : List Nat :=
  (List.range G).flatMap (groupAccepted stream)

/-- The cached candidate as a (zero- or one-element) list. -/
def cacheList : Option Nat → List Nat
  | none => []
  | some v => [v]

/-- Reader-state invariant: the reachable states of `FieldElementReader` when the
next unread byte group is `g` — the XOF has been pulled in whole 96-byte reads, the
cursor is 3-aligned, and the buffer holds the last 96 bytes drawn. -/
def ReaderAt (stream : Nat → Nat) (r : FieldElementReader) (g : Nat) : Prop :=
  r.stream = stream ∧ 96 ≤ r.consumed ∧ r.consumed % 96 = 0 ∧ r.start ≤ 96 ∧
    r.start % 3 = 0 ∧ 3 * g + 96 = r.consumed + r.start ∧
    r.data = readerFill stream (r.consumed - 96)

theorem readerRefill_at {stream : Nat → Nat} {r : FieldElementReader} {g : Nat}
    (h : ReaderAt stream r g) :
    ReaderAt stream (readerRefill r) g ∧ (readerRefill r).start + 3 ≤ 96 ∧
      (readerRefill r).next? = r.next? := by
  obtain ⟨h1, h2, h3, h4, h5, h6, h7⟩ := h
  unfold readerRefill
  split
  · next hs =>
    refine ⟨⟨h1, by simp <;> omega, by simp <;> omega, by simp, by simp,
      by simp <;> omega, ?_⟩, by simp, rfl⟩
    simp only [h1]
    show readerFill stream r.consumed = readerFill stream (r.consumed + 96 - 96)
    rw [show r.consumed + 96 - 96 = r.consumed from by omega]
  · exact ⟨⟨h1, h2, h3, h4, h5, h6, h7⟩, by simp <;> omega, rfl⟩

theorem readerAt_data {stream : Nat → Nat} {r : FieldElementReader} {g : Nat}
    (h : ReaderAt stream r g) (k : Nat) :
    r.data (r.start + k) = stream (3 * g + k) := by
  obtain ⟨h1, h2, h3, h4, h5, h6, h7⟩ := h
  rw [h7]
  unfold readerFill
  congr 1
  omega

/-- One successful run of the rejection loop consumes some number `n+1` of byte
groups, leaves the reader at the next group, and the accepted candidates of the
consumed groups are exactly the returned value followed by the new cache. -/
theorem readerLoop_spec (stream : Nat → Nat) :
    ∀ fuel r g v r', ReaderAt stream r g → r.next? = none →
      readerLoop fuel r = some (v, r') →
      ∃ n, ReaderAt stream r' (g + n + 1) ∧
        (List.range' g (n + 1)).flatMap (groupAccepted stream) =
          v :: cacheList r'.next? := by
  intro fuel
  induction fuel with
  | zero =>
    intro r g v r' _ _ h
    simp [readerLoop] at h
  | succ fuel ih =>
    intro r g v r' hR hnone heq
    obtain ⟨hR1, hlt, hn1⟩ := readerRefill_at hR
    simp only [readerLoop] at heq
    rw [readerAt_data hR1 1, readerAt_data hR1 2] at heq
    have hb0 : (readerRefill r).data (readerRefill r).start = stream (3 * g) := by
      have := readerAt_data hR1 0
      simpa using this
    rw [hb0] at heq
    rw [show stream (3 * g) + ((stream (3 * g + 1) &&& 0xf) <<< 8) = groupD1 stream g
        from rfl,
      show (stream (3 * g + 1) >>> 4) + (stream (3 * g + 2) <<< 4) = groupD2 stream g
        from rfl] at heq
    obtain ⟨hA1, hA2, hA3, hA4, hA5, hA6, hA7⟩ := hR1
    rcases Nat.lt_or_ge (groupD1 stream g) Q with hd1 | hd1
    · rw [if_pos hd1] at heq
      rcases Nat.lt_or_ge (groupD2 stream g) Q with hd2 | hd2
      · rw [if_pos hd2] at heq
        simp only [Option.some.injEq, Prod.mk.injEq] at heq
        obtain ⟨rfl, rfl⟩ := heq
        refine ⟨0, ⟨hA1, by simpa using hA2, by simpa using hA3, by simp <;> omega,
          by simp <;> omega, by simp <;> omega, by simpa using hA7⟩, ?_⟩
        simp [List.range'_succ, groupAccepted, if_pos hd1, if_pos hd2, cacheList]
      · rw [if_neg (by omega)] at heq
        simp only [Option.some.injEq, Prod.mk.injEq] at heq
        obtain ⟨rfl, rfl⟩ := heq
        refine ⟨0, ⟨hA1, by simpa using hA2, by simpa using hA3, by simp <;> omega,
          by simp <;> omega, by simp <;> omega, by simpa using hA7⟩, ?_⟩
        simp [List.range'_succ, groupAccepted, if_pos hd1,
          if_neg (by omega : ¬ groupD2 stream g < Q), cacheList, hn1, hnone]
    · rw [if_neg (by omega)] at heq
      rcases Nat.lt_or_ge (groupD2 stream g) Q with hd2 | hd2
      · rw [if_pos hd2] at heq
        simp only [Option.some.injEq, Prod.mk.injEq] at heq
        obtain ⟨rfl, rfl⟩ := heq
        refine ⟨0, ⟨hA1, by simpa using hA2, by simpa using hA3, by simp <;> omega,
          by simp <;> omega, by simp <;> omega, by simpa using hA7⟩, ?_⟩
        simp [List.range'_succ, groupAccepted,
          if_neg (by omega : ¬ groupD1 stream g < Q), if_pos hd2, cacheList, hn1, hnone]
      · rw [if_neg (by omega)] at heq
        have hR2 : ReaderAt stream
            ({ readerRefill r with start := (readerRefill r).start + 3 }) (g + 1) :=
          ⟨hA1, by simpa using hA2, by simpa using hA3, by simp <;> omega,
            by simp <;> omega, by simp <;> omega, by simpa using hA7⟩
        have hn2 : ({ readerRefill r with
            start := (readerRefill r).start + 3 } : FieldElementReader).next? = none := by
          simpa using hn1.trans hnone
        obtain ⟨n, hA, hL⟩ := ih _ _ _ _ hR2 hn2 heq
        refine ⟨n + 1, by convert hA using 2; omega, ?_⟩
        rw [List.range'_succ]
        simp only [List.flatMap_cons]
        rw [show groupAccepted stream g = [] by
          simp [groupAccepted, if_neg (by omega : ¬ groupD1 stream g < Q),
            if_neg (by omega : ¬ groupD2 stream g < Q)]]
        simpa using hL

/-- Sequencing draws: the output of `sampleUniformGo` is the pending cache followed
by the accepted candidates of the consumed groups, less the final cache. -/
theorem sampleUniformGo_spec (stream : Nat → Nat) (fuel : Nat) :
    ∀ cnt r g out rf, ReaderAt stream r g →
      sampleUniformGo fuel cnt r = some (out, rf) →
      ∃ m, ReaderAt stream rf (g + m) ∧
        cacheList r.next? ++ (List.range' g m).flatMap (groupAccepted stream) =
          out ++ cacheList rf.next? ∧
        out.length = cnt := by
  intro cnt
  induction cnt with
  | zero =>
    intro r g out rf hR heq
    simp only [sampleUniformGo, Option.some.injEq, Prod.mk.injEq] at heq
    obtain ⟨rfl, rfl⟩ := heq
    exact ⟨0, by simpa using hR, by simp, rfl⟩
  | succ cnt ih =>
    intro r g out rf hR heq
    simp only [sampleUniformGo] at heq
    cases hnx : readerNext fuel r with
    | none => rw [hnx] at heq; simp at heq
    | some p =>
      obtain ⟨v, r1⟩ := p
      rw [hnx] at heq
      dsimp only at heq
      cases hrec : sampleUniformGo fuel cnt r1 with
      | none => rw [hrec] at heq; simp at heq
      | some q =>
        obtain ⟨l, rf'⟩ := q
        rw [hrec] at heq
        simp only [Option.some.injEq, Prod.mk.injEq] at heq
        obtain ⟨rfl, rfl⟩ := heq
        cases hn : r.next? with
        | some v0 =>
          unfold readerNext at hnx
          rw [hn] at hnx
          simp only [Option.some.injEq, Prod.mk.injEq] at hnx
          obtain ⟨rfl, rfl⟩ := hnx
          have hR1 : ReaderAt stream ({ r with next? := none }) g := by
            obtain ⟨h1, h2, h3, h4, h5, h6, h7⟩ := hR
            exact ⟨h1, h2, h3, h4, h5, h6, h7⟩
          obtain ⟨m, hA, hEq, hLen⟩ := ih _ _ _ _ hR1 hrec
          refine ⟨m, hA, ?_, by simpa using hLen⟩
          simp only [cacheList] at hEq ⊢
          simp only [List.nil_append] at hEq
          simp [hEq]
        | none =>
          unfold readerNext at hnx
          rw [hn] at hnx
          dsimp only at hnx
          obtain ⟨n, hA1, hL⟩ := readerLoop_spec stream fuel r g v r1 hR hn hnx
          obtain ⟨m, hA, hEq, hLen⟩ := ih _ _ _ _ hA1 hrec
          refine ⟨n + 1 + m, ?_, ?_, by simpa using hLen⟩
          · have : g + (n + 1 + m) = g + n + 1 + m := by omega
            rw [this]
            exact hA
          · have hsplit : List.range' g (n + 1 + m) =
                List.range' g (n + 1) ++ List.range' (g + (n + 1)) m := by
              rw [List.range'_append_1]
              congr 1
              omega
            rw [hsplit, List.flatMap_append, hL]
            have h1 : g + (n + 1) = g + n + 1 := by omega
            rw [h1, List.cons_append, hEq]
            simp [cacheList]

/-- C4: a successful run of `NttPolynomial::sample_uniform` returns exactly the
first 256 accepted candidates of the XOF stream: the stream is consumed in 96-byte
refills and split into 3-byte groups yielding `d1 = b0 | ((b1 & 0x0F) << 8)` and
`d2 = (b1 >> 4) | (b2 << 4)`; a candidate is kept iff it is `< Q`, a `d2` accepted
together with `d1` is cached and delivered on the next call, and sampling stops
after 256 accepted elements (the final cache is the only surplus). -/
theorem sample_uniform_spec (fuel : Nat) (stream : Nat → Nat) (out : List Nat)
    (rf : FieldElementReader)
    (h : sample_uniform fuel stream = some (out, rf)) :
    out.length = 256 ∧
    ∃ G, out ++ cacheList rf.next? = acceptedPrefix stream G ∧
      out = (acceptedPrefix stream G).take 256 ∧
      rf.consumed % 96 = 0 ∧ 3 * G ≤ rf.consumed := by
  have hR0 : ReaderAt stream (FieldElementReader.new stream) 0 := by
    refine ⟨rfl, by simp [FieldElementReader.new], by simp [FieldElementReader.new],
      by simp [FieldElementReader.new], by simp [FieldElementReader.new],
      by simp [FieldElementReader.new], by simp [FieldElementReader.new, readerFill]⟩
  obtain ⟨m, hA, hEq, hLen⟩ := sampleUniformGo_spec stream fuel 256 _ 0 out rf hR0 h
  have hEq' : out ++ cacheList rf.next? = acceptedPrefix stream m := by
    rw [← hEq]
    simp only [FieldElementReader.new, cacheList, List.nil_append]
    rw [acceptedPrefix, List.range_eq_range']
  obtain ⟨hA1, hA2, hA3, hA4, hA5, hA6, hA7⟩ := hA
  refine ⟨hLen, m, hEq', ?_, hA3, by omega⟩
  rw [← hEq']
  exact (List.take_left' hLen).symm

set_option maxRecDepth 8000 in
/-- Witness for C4: the all-zero stream accepts both candidates of every group, so
fuel 1 suffices and the output is 256 zeros. -/
theorem sample_uniform_spec_witness :
    (List.replicate 256 0).length = 256 ∧
    ∃ G, List.replicate 256 0 ++
        cacheList (⟨fun _ => 0, 384, readerFill (fun _ => 0) 288, 96, none⟩ :
          FieldElementReader).next? = acceptedPrefix (fun _ => 0) G ∧
      List.replicate 256 0 = (acceptedPrefix (fun _ => 0) G).take 256 ∧
      (⟨fun _ => 0, 384, readerFill (fun _ => 0) 288, 96, none⟩ :
          FieldElementReader).consumed % 96 = 0 ∧
      3 * G ≤ (⟨fun _ => 0, 384, readerFill (fun _ => 0) 288, 96, none⟩ :
          FieldElementReader).consumed :=
  sample_uniform_spec 1 (fun _ => 0) (List.replicate 256 0)
    ⟨fun _ => 0, 384, readerFill (fun _ => 0) 288, 96, none⟩ (by rfl)

/-! ### Matrix / vector uniform sampling (`NttVector::sample_uniform`,
`NttMatrix::sample_uniform`) -/

/-- `NttVector::sample_uniform(rho, i, transpose)`, entry `j`: the XOF is modelled as
a family of byte streams `xof a b` keyed by the two single-byte indices
(`i.truncate()`/`j.truncate()` is truncation to `u8`).  Source:
`let (i, j) = if transpose { (i, j) } else { (j, i) };` then `XOF(rho, i, j)`. -/
def nttVectorSampleEntry (fuel : Nat) (xof : Nat → Nat → Nat → Nat) (i : Nat)
    (transpose : Bool) (j : Nat) : Option (List Nat × FieldElementReader) :=
  let p := if transpose then (i, j) else (j, i)
  sample_uniform fuel (xof (p.1 % 256) (p.2 % 256))

/-- `NttMatrix::sample_uniform(rho, transpose)`, entry `(i, j)`: row `i` is
`NttVector::sample_uniform(rho, i, transpose)`. -/
def nttMatrixSampleEntry (fuel : Nat) (xof : Nat → Nat → Nat → Nat)
    (transpose : Bool) (i j : Nat) : Option (List Nat × FieldElementReader) :=
  nttVectorSampleEntry fuel xof i transpose j

/-- C1 (amended): matrix entry `(i,j)` is drawn from the XOF keyed on `(rho, j, i)`
when the transpose flag is unset, and on `(rho, i, j)` when it is set — the reverse
of the order stated in the specification. -/
theorem nttMatrix_sample_uniform_indices (fuel : Nat) (xof : Nat → Nat → Nat → Nat)
    (i j : Nat) (hi : i < 256) (hj : j < 256) :
    nttMatrixSampleEntry fuel xof false i j = sample_uniform fuel (xof j i) ∧
    nttMatrixSampleEntry fuel xof true i j = sample_uniform fuel (xof i j) := by
  constructor
  · show sample_uniform fuel (xof (j % 256) (i % 256)) = _
    rw [Nat.mod_eq_of_lt hj, Nat.mod_eq_of_lt hi]
  · show sample_uniform fuel (xof (i % 256) (j % 256)) = _
    rw [Nat.mod_eq_of_lt hi, Nat.mod_eq_of_lt hj]

/-- Witness for C1 (amended) at `i = 0`, `j = 1` and a concrete XOF family. -/
theorem nttMatrix_sample_uniform_indices_witness :
    nttMatrixSampleEntry 1 (fun a _ _ => a) false 0 1 =
      sample_uniform 1 ((fun a _ _ => a : Nat → Nat → Nat → Nat) 1 0) ∧
    nttMatrixSampleEntry 1 (fun a _ _ => a) true 0 1 =
      sample_uniform 1 ((fun a _ _ => a : Nat → Nat → Nat → Nat) 0 1) :=
  nttMatrix_sample_uniform_indices 1 (fun a _ _ => a) 0 1 (by omega) (by omega)

set_option maxRecDepth 8000 in
/-- Counterexample to C1 as stated: with the XOF family whose `(a, b)` stream is the
constant byte `a`, entry `(0, 1)` with the transpose flag unset is NOT drawn from the
XOF keyed on `(rho, 0, 1)`: the first sampled coefficient is 257, not 0. -/
theorem nttMatrix_sample_uniform_claim_counterexample :
    nttMatrixSampleEntry 1 (fun a _ _ => a) false 0 1 ≠
      sample_uniform 1 ((fun a _ _ => a : Nat → Nat → Nat → Nat) 0 1) := by
  intro h
  have h1 : (nttMatrixSampleEntry 1 (fun a _ _ => a) false 0 1).map
      (fun p => p.1.head?) = some (some 257) := by rfl
  rw [h] at h1
  have h2 : (sample_uniform 1 ((fun a _ _ => a : Nat → Nat → Nat → Nat) 0 1)).map
      (fun p => p.1.head?) = some (some 0) := by rfl
  rw [h1] at h2
  simp at h2

/-! ### NTT, forward and inverse (Algorithms 8 and 9) -/

/-- Pointwise array update, modelling the assignment `f[i] = v`. -/
def upd (f : Nat → Nat) (i v : Nat) : Nat → Nat := fun n => if n = i then v else f n

/-- The Cooley-Tukey butterfly of Algorithm 8 (`Polynomial::ntt`):
`let t = zeta * f[j + len]; f[j + len] = f[j] - t; f[j] = f[j] + t;`. -/
def butterflyF (zeta len j : Nat) (f : Nat → Nat) : Nat → Nat :=
  let t := fieldMul zeta (f (j + len))
  let f1 := upd f (j + len) (fieldSub (f j) t)
  upd f1 j (fieldAdd (f1 j) t)

/-- The Gentleman-Sande butterfly of Algorithm 9 (`NttPolynomial::ntt_inverse`):
`let t = f[j]; f[j] = t + f[j + len]; f[j + len] = zeta * (f[j + len] - t);`. -/
def butterflyI (zeta len j : Nat) (f : Nat → Nat) : Nat → Nat :=
  let t := f j
  let f1 := upd f j (fieldAdd t (f (j + len)))
  upd f1 (j + len) (fieldMul zeta (fieldSub (f1 (j + len)) t))

/-- One block of a forward layer: read `ZETA_POW_BITREV[k]`, advance `k`, then the
inner loop `for j in start..(start + len)` with `start = 2 * len * b`. -/
def nttBlockF (len : Nat) (s : (Nat → Nat) × Nat) (b : Nat) : (Nat → Nat) × Nat :=
  let start := 2 * len * b
  let zeta := zetaPB s.2
  ((List.range len).foldl (fun f dj => butterflyF zeta len (start + dj) f) s.1, s.2 + 1)

/-- One forward layer: `for start in (0..256).step_by(2 * len)`. -/
def nttLayerF (s : (Nat → Nat) × Nat) (len : Nat) : (Nat → Nat) × Nat :=
  (List.range (256 / (2 * len))).foldl (nttBlockF len) s

/-- Algorithm 8, `Polynomial::ntt`: layers `len = 128, 64, ..., 2` with the twiddle
counter `k` starting at 1. -/
def ntt (p : Nat → Nat) : Nat → Nat :=
  ([128, 64, 32, 16, 8, 4, 2].foldl nttLayerF (p, 1)).1

/-- One block of an inverse layer: read `ZETA_POW_BITREV[k]`, decrement `k`, then the
inner loop. -/
def nttBlockI (len : Nat) (s : (Nat → Nat) × Nat) (b : Nat) : (Nat → Nat) × Nat :=
  let start := 2 * len * b
  let zeta := zetaPB s.2
  ((List.range len).foldl (fun f dj => butterflyI zeta len (start + dj) f) s.1, s.2 - 1)

/-- One inverse layer. -/
def nttLayerI (s : (Nat → Nat) × Nat) (len : Nat) : (Nat → Nat) × Nat :=
  (List.range (256 / (2 * len))).foldl (nttBlockI len) s

/-- Algorithm 9, `NttPolynomial::ntt_inverse`: layers `len = 2, 4, ..., 128` with `k`
starting at 127, then the broadcast multiplication by `FieldElement(3303)`. -/
def ntt_inverse (p : Nat → Nat) : Nat → Nat :=
  let f := ([2, 4, 8, 16, 32, 64, 128].foldl nttLayerI (p, 127)).1
  fun n => fieldMul 3303 (f n)

/-- The field `Z_q` as `ZMod 3329`, used for the algebraic analysis. -/
abbrev Fq := ZMod 3329

/-- `ZETA_POW_BITREV[k]` as an element of `Z_q`. -/
def mzeta (k : Nat) : Fq := (zetaPB k : Fq)

/-- `GAMMA[i]` as an element of `Z_q`. -/
def mgamma (i : Nat) : Fq := (gamma i : Fq)

/-- The forward butterfly over `Z_q`. -/
def bfFm (k : Nat) (x y : Fq) : Fq × Fq := (x + mzeta k * y, x - mzeta k * y)

/-- The inverse butterfly over `Z_q`. -/
def bfIm (k : Nat) (x y : Fq) : Fq × Fq := (x + y, mzeta k * (y - x))

/-- The parallel (whole-array) form of one butterfly layer over `Z_q`: position `n`
of block `b = n / (2*len)` is combined with its partner at distance `len`, using the
twiddle index `kOf b`. -/
def mathLayer (len : Nat) (kOf : Nat → Nat) (bf : Nat → Fq → Fq → Fq × Fq)
    (g : Nat → Fq) : Nat → Fq := fun n =>
  if n < 256 then
    if n % (2 * len) < len then
      (bf (kOf (n / (2 * len))) (g n) (g (n + len))).1
    else
      (bf (kOf (n / (2 * len))) (g (n - len)) (g n)).2
  else g n

/-- A generic block body in update form: compute the butterfly pair from the two read
positions and write both. -/
def applyPair (len j : Nat) (bfN : Nat → Nat → Nat × Nat) (f : Nat → Nat) : Nat → Nat :=
  upd (upd f j (bfN (f j) (f (j + len))).1) (j + len) (bfN (f j) (f (j + len))).2

/-- A generic block with counter update `bump`, matching `nttBlockF`/`nttBlockI`. -/
def nttBlockG (len : Nat) (bfN : Nat → Nat → Nat → Nat × Nat) (bump : Nat → Nat)
    (s : (Nat → Nat) × Nat) (b : Nat) : (Nat → Nat) × Nat :=
  ((List.range len).foldl (fun f dj => applyPair len (2 * len * b + dj) (bfN s.2) f) s.1,
    bump s.2)

/-- The `Nat`-level forward butterfly pair. -/
def bfFn (k : Nat) (x y : Nat) : Nat × Nat :=
  (fieldAdd x (fieldMul (zetaPB k) y), fieldSub x (fieldMul (zetaPB k) y))

/-- The `Nat`-level inverse butterfly pair. -/
def bfIn (k : Nat) (x y : Nat) : Nat × Nat :=
  (fieldAdd x y, fieldMul (zetaPB k) (fieldSub y x))

theorem upd_eval (f : Nat → Nat) (i v n : Nat) :
    upd f i v n = if n = i then v else f n := rfl

theorem foldl_fun_congr {A B : Type} (g1 g2 : A → B → A) (h : ∀ a b, g1 a b = g2 a b)
    (l : List B) (a : A) : l.foldl g1 a = l.foldl g2 a := by
  have hg : g1 = g2 := funext fun x => funext fun y => h x y
  rw [hg]

theorem butterflyF_eq_applyPair (zeta len j : Nat) (hlen : 0 < len) (f : Nat → Nat) :
    butterflyF zeta len j f =
      applyPair len j (fun x y => (fieldAdd x (fieldMul zeta y), fieldSub x (fieldMul zeta y))) f := by
  funext n
  have hne : j ≠ j + len := by omega
  simp only [butterflyF, applyPair, upd]
  rcases eq_or_ne n j with rfl | hj
  · simp [hne]
  · rcases eq_or_ne n (j + len) with rfl | hjl
    · simp [hj, Ne.symm hne]
    · simp [hj, hjl]

theorem butterflyI_eq_applyPair (zeta len j : Nat) (hlen : 0 < len) (f : Nat → Nat) :
    butterflyI zeta len j f =
      applyPair len j (fun x y => (fieldAdd x y, fieldMul zeta (fieldSub y x))) f := by
  funext n
  have hne : j ≠ j + len := by omega
  simp only [butterflyI, applyPair, upd]
  rcases eq_or_ne n (j + len) with rfl | hjl
  · simp [Ne.symm hne, hne]
  · rcases eq_or_ne n j with rfl | hj
    · simp [hjl, hne]
    · simp [hj, hjl]

theorem nttBlockF_eq (len : Nat) (hlen : 0 < len) (s : (Nat → Nat) × Nat) (b : Nat) :
    nttBlockF len s b = nttBlockG len bfFn (fun k => k + 1) s b := by
  unfold nttBlockF nttBlockG bfFn
  dsimp only
  congr 1
  apply foldl_fun_congr
  intro f dj
  exact butterflyF_eq_applyPair _ _ _ hlen f

theorem nttBlockI_eq (len : Nat) (hlen : 0 < len) (s : (Nat → Nat) × Nat) (b : Nat) :
    nttBlockI len s b = nttBlockG len bfIn (fun k => k - 1) s b := by
  unfold nttBlockI nttBlockG bfIn
  dsimp only
  congr 1
  apply foldl_fun_congr
  intro f dj
  exact butterflyI_eq_applyPair _ _ _ hlen f

theorem cast_inj_of_lt {a b : Nat} (ha : a < Q) (hb : b < Q) (h : (a : Fq) = (b : Fq)) :
    a = b := by
  have h1 : ((a : Nat) : Fq).val = a := ZMod.val_cast_of_lt (by rw [Q_eq] at ha; exact ha)
  have h2 : ((b : Nat) : Fq).val = b := ZMod.val_cast_of_lt (by rw [Q_eq] at hb; exact hb)
  rw [← h1, ← h2, h]

theorem cast_fieldAdd {a b : Nat} (ha : a < Q) (hb : b < Q) :
    ((fieldAdd a b : Nat) : Fq) = (a : Fq) + (b : Fq) := by
  rw [fieldAdd_eq_mod ha hb, Q_eq, ZMod.natCast_mod, Nat.cast_add]

theorem cast_fieldSub {a b : Nat} (ha : a < Q) (hb : b < Q) :
    ((fieldSub a b : Nat) : Fq) = (a : Fq) - (b : Fq) := by
  rw [fieldSub_eq_mod ha hb, Q_eq, ZMod.natCast_mod,
    Nat.add_sub_assoc (by rw [Q_eq] at hb; omega), Nat.cast_add,
    Nat.cast_sub (by rw [Q_eq] at hb; omega)]
  rw [show ((3329 : Nat) : Fq) = 0 from ZMod.natCast_self 3329]
  ring

theorem cast_fieldMul {a b : Nat} (ha : a < Q) (hb : b < Q) :
    ((fieldMul a b : Nat) : Fq) = (a : Fq) * (b : Fq) := by
  rw [fieldMul_eq_mod ha hb, Q_eq, ZMod.natCast_mod, Nat.cast_mul]

/-- Simulation relation between a `Nat`-level butterfly pair and its `Z_q`
counterpart: canonical outputs that cast to the field values. -/
def BfSim (bfN : Nat → Nat → Nat × Nat) (bf : Fq → Fq → Fq × Fq) : Prop :=
  ∀ x y, x < Q → y < Q →
    (bfN x y).1 < Q ∧ (bfN x y).2 < Q ∧
    (((bfN x y).1 : Fq) = (bf (x : Fq) (y : Fq)).1) ∧
    (((bfN x y).2 : Fq) = (bf (x : Fq) (y : Fq)).2)

theorem bfFn_sim (k : Nat) : BfSim (bfFn k) (bfFm k) := by
  intro x y hx hy
  have hz := zetaPB_lt k
  have hm : fieldMul (zetaPB k) y < Q := fieldMul_lt hz hy
  refine ⟨fieldAdd_lt hx hm, fieldSub_lt hx hm, ?_, ?_⟩
  · rw [show (bfFn k x y).1 = fieldAdd x (fieldMul (zetaPB k) y) from rfl,
      cast_fieldAdd hx hm, cast_fieldMul hz hy]
    rfl
  · rw [show (bfFn k x y).2 = fieldSub x (fieldMul (zetaPB k) y) from rfl,
      cast_fieldSub hx hm, cast_fieldMul hz hy]
    rfl

theorem bfIn_sim (k : Nat) : BfSim (bfIn k) (bfIm k) := by
  intro x y hx hy
  have hz := zetaPB_lt k
  have hs : fieldSub y x < Q := fieldSub_lt hy hx
  refine ⟨fieldAdd_lt hx hy, fieldMul_lt hz hs, ?_, ?_⟩
  · rw [show (bfIn k x y).1 = fieldAdd x y from rfl, cast_fieldAdd hx hy]
    rfl
  · rw [show (bfIn k x y).2 = fieldMul (zetaPB k) (fieldSub y x) from rfl,
      cast_fieldMul hz hs, cast_fieldSub hy hx]
    rfl

theorem applyPair_eval (len j : Nat) (bfN : Nat → Nat → Nat × Nat)
    (f : Nat → Nat) (n : Nat) :
    applyPair len j bfN f n =
      if n = j + len then (bfN (f j) (f (j + len))).2
      else if n = j then (bfN (f j) (f (j + len))).1
      else f n := rfl

/-- Characterization of one block's inner loop: the first `m` butterflies transform
positions `start..start+m` and their partners, leave everything else unchanged, and
keep all values canonical. -/
theorem applyPair_fold_char (len start : Nat) (hlen : 0 < len)
    (bfN : Nat → Nat → Nat × Nat) (bf : Fq → Fq → Fq × Fq) (hsim : BfSim bfN bf)
    (f : Nat → Nat) (hf : ∀ n, f n < Q) :
    ∀ m, m ≤ len →
      (∀ n, (List.range m).foldl (fun h dj => applyPair len (start + dj) bfN h) f n < Q) ∧
      (∀ s, s < m →
        ((((List.range m).foldl (fun h dj => applyPair len (start + dj) bfN h) f)
            (start + s) : Fq) =
          (bf ((f (start + s) : Fq)) ((f (start + s + len) : Fq))).1 ∧
        (((List.range m).foldl (fun h dj => applyPair len (start + dj) bfN h) f)
            (start + len + s) : Fq) =
          (bf ((f (start + s) : Fq)) ((f (start + s + len) : Fq))).2)) ∧
      (∀ n, (n < start ∨ (start + m ≤ n ∧ n < start + len) ∨ start + len + m ≤ n) →
        (List.range m).foldl (fun h dj => applyPair len (start + dj) bfN h) f n = f n) := by
  intro m
  induction m with
  | zero =>
    exact fun _ => ⟨hf, fun s hs => absurd hs (by omega), fun n _ => rfl⟩
  | succ m ih =>
    intro hm
    obtain ⟨ih1, ih2, ih3⟩ := ih (by omega)
    rw [List.range_succ]
    simp only [List.foldl_append, List.foldl_cons, List.foldl_nil]
    set G := (List.range m).foldl (fun h dj => applyPair len (start + dj) bfN h) f with hG
    have hGa : G (start + m) = f (start + m) := ih3 _ (by omega)
    have hGb : G (start + m + len) = f (start + m + len) := ih3 _ (by omega)
    have hsim1 := hsim (f (start + m)) (f (start + m + len)) (hf _) (hf _)
    constructor
    · intro n
      rw [applyPair_eval]
      split
      · rw [hGa, hGb]
        exact hsim1.2.1
      · split
        · rw [hGa, hGb]
          exact hsim1.1
        · exact ih1 n
    constructor
    · intro s hs
      rcases Nat.lt_or_ge s m with hsm | hsm
      · constructor
        · rw [applyPair_eval, if_neg (by omega), if_neg (by omega)]
          exact (ih2 s hsm).1
        · rw [applyPair_eval, if_neg (by omega), if_neg (by omega)]
          exact (ih2 s hsm).2
      · have hse : s = m := by omega
        subst hse
        constructor
        · rw [applyPair_eval, if_neg (by omega), if_pos rfl, hGa, hGb]
          exact hsim1.2.2.1
        · rw [applyPair_eval, if_pos (by omega), hGa, hGb]
          exact hsim1.2.2.2
    · intro n hn
      rw [applyPair_eval, if_neg (by omega), if_neg (by omega)]
      exact ih3 n (by omega)

theorem iterate_add_one (k : Nat) : ∀ b, (fun x => x + 1)^[b] k = k + b := by
  intro b
  induction b with
  | zero => rfl
  | succ b ih =>
    rw [Function.iterate_succ_apply', ih]
    omega

theorem iterate_sub_one (k : Nat) : ∀ b, (fun x => x - 1)^[b] k = k - b := by
  intro b
  induction b with
  | zero => rfl
  | succ b ih =>
    rw [Function.iterate_succ_apply', ih]
    omega

/-- Characterization of a whole layer (fold over blocks): counter evolution,
canonicality, per-block butterfly values, and the frame outside the processed
blocks. -/
theorem blockG_fold_char (len : Nat) (hlen : 0 < len)
    (bfN : Nat → Nat → Nat → Nat × Nat) (bf : Nat → Fq → Fq → Fq × Fq)
    (hsim : ∀ k, BfSim (bfN k) (bf k)) (bump : Nat → Nat) :
    ∀ B (f : Nat → Nat) (k : Nat), (∀ n, f n < Q) →
      ((List.range B).foldl (nttBlockG len bfN bump) (f, k)).2 = bump^[B] k ∧
      (∀ n, ((List.range B).foldl (nttBlockG len bfN bump) (f, k)).1 n < Q) ∧
      (∀ b s, b < B → s < len →
        ((((List.range B).foldl (nttBlockG len bfN bump) (f, k)).1 (2 * len * b + s) : Fq) =
          (bf (bump^[b] k) ((f (2 * len * b + s) : Fq))
            ((f (2 * len * b + s + len) : Fq))).1 ∧
        (((List.range B).foldl (nttBlockG len bfN bump) (f, k)).1
            (2 * len * b + len + s) : Fq) =
          (bf (bump^[b] k) ((f (2 * len * b + s) : Fq))
            ((f (2 * len * b + s + len) : Fq))).2)) ∧
      (∀ n, 2 * len * B ≤ n →
        ((List.range B).foldl (nttBlockG len bfN bump) (f, k)).1 n = f n) := by
  intro B
  induction B with
  | zero =>
    exact fun f k hf => ⟨rfl, hf, fun b s hb => absurd hb (by omega), fun n _ => rfl⟩
  | succ B ih =>
    intro f k hf
    obtain ⟨ih1, ih2, ih3, ih4⟩ := ih f k hf
    rw [List.range_succ]
    simp only [List.foldl_append, List.foldl_cons, List.foldl_nil]
    set out := (List.range B).foldl (nttBlockG len bfN bump) (f, k) with hout
    have hblock : nttBlockG len bfN bump out B =
        ((List.range len).foldl
          (fun h dj => applyPair len (2 * len * B + dj) (bfN out.2) h) out.1,
          bump out.2) := rfl
    obtain ⟨ap1, ap2, ap3⟩ := applyPair_fold_char len (2 * len * B) hlen (bfN out.2)
      (bf out.2) (hsim out.2) out.1 ih2 len (le_refl len)
    rw [hblock]
    dsimp only
    refine ⟨?_, ?_, ?_, ?_⟩
    · show bump out.2 = bump^[B + 1] k
      rw [ih1, Function.iterate_succ_apply']
    · exact ap1
    · intro b s hb hs
      rcases Nat.lt_or_ge b B with hbB | hbB
      · have h1 : 2 * len * b + s < 2 * len * B := by nlinarith
        have h2 : 2 * len * b + len + s < 2 * len * B := by nlinarith
        constructor
        · rw [ap3 (2 * len * b + s) (Or.inl h1)]
          exact (ih3 b s hbB hs).1
        · rw [ap3 (2 * len * b + len + s) (Or.inl h2)]
          exact (ih3 b s hbB hs).2
      · have hbe : b = B := by omega
        subst hbe
        have hra : out.1 (2 * len * b + s) = f (2 * len * b + s) := ih4 _ (by omega)
        have hrb : out.1 (2 * len * b + s + len) = f (2 * len * b + s + len) :=
          ih4 _ (by omega)
        have hsq := ap2 s hs
        rw [ih1] at hsq ⊢
        constructor
        · rw [hsq.1, hra, hrb]
        · rw [hsq.2, hra, hrb]
    · intro n hn
      have hexp : 2 * len * (B + 1) = 2 * len * B + 2 * len := by ring
      rw [ap3 n (Or.inr (Or.inr (by omega)))]
      exact ih4 n (by omega)

/-- A forward layer computes `mathLayer` with twiddle indices `k, k+1, ...`, keeps
all coefficients canonical, and advances the counter by the number of blocks. -/
theorem nttLayerF_char (len k : Nat) (hlen : 0 < len)
    (hB : 2 * len * (256 / (2 * len)) = 256)
    (f : Nat → Nat) (hf : ∀ n, f n < Q) :
    (nttLayerF (f, k) len).2 = k + 256 / (2 * len) ∧
    (∀ n, (nttLayerF (f, k) len).1 n < Q) ∧
    (∀ n, ((nttLayerF (f, k) len).1 n : Fq) =
      mathLayer len (fun b => k + b) bfFm (fun m => (f m : Fq)) n) := by
  have heq : nttLayerF (f, k) len =
      (List.range (256 / (2 * len))).foldl (nttBlockG len bfFn (fun x => x + 1)) (f, k) := by
    unfold nttLayerF
    apply foldl_fun_congr
    intro s b
    exact nttBlockF_eq len hlen s b
  obtain ⟨h1, h2, h3, h4⟩ := blockG_fold_char len hlen bfFn bfFm bfFn_sim (fun x => x + 1)
    (256 / (2 * len)) f k hf
  rw [heq]
  refine ⟨by rw [h1, iterate_add_one], h2, ?_⟩
  intro n
  unfold mathLayer
  rcases Nat.lt_or_ge n 256 with hn | hn
  · rw [if_pos hn]
    have hdm := Nat.div_add_mod n (2 * len)
    have hrlt : n % (2 * len) < 2 * len := Nat.mod_lt _ (by omega)
    have hmul : 2 * len * (n / (2 * len)) < 2 * len * (256 / (2 * len)) := by omega
    have hbB : n / (2 * len) < 256 / (2 * len) := Nat.lt_of_mul_lt_mul_left hmul
    rcases Nat.lt_or_ge (n % (2 * len)) len with hrl | hrl
    · have h5 := (h3 (n / (2 * len)) (n % (2 * len)) hbB hrl).1
      rw [iterate_add_one] at h5
      rw [show 2 * len * (n / (2 * len)) + n % (2 * len) = n from by omega] at h5
      rw [if_pos hrl]
      exact h5
    · have h5 := (h3 (n / (2 * len)) (n % (2 * len) - len) hbB (by omega)).2
      rw [iterate_add_one] at h5
      rw [show 2 * len * (n / (2 * len)) + len + (n % (2 * len) - len) = n from by omega,
        show 2 * len * (n / (2 * len)) + (n % (2 * len) - len) = n - len from by omega,
        show n - len + len = n from by omega] at h5
      rw [if_neg (by omega)]
      exact h5
  · rw [if_neg (by omega), h4 n (by omega)]

/-- An inverse layer computes `mathLayer` with twiddle indices `k, k-1, ...`, keeps
all coefficients canonical, and decrements the counter by the number of blocks. -/
theorem nttLayerI_char (len k : Nat) (hlen : 0 < len)
    (hB : 2 * len * (256 / (2 * len)) = 256)
    (f : Nat → Nat) (hf : ∀ n, f n < Q) :
    (nttLayerI (f, k) len).2 = k - 256 / (2 * len) ∧
    (∀ n, (nttLayerI (f, k) len).1 n < Q) ∧
    (∀ n, ((nttLayerI (f, k) len).1 n : Fq) =
      mathLayer len (fun b => k - b) bfIm (fun m => (f m : Fq)) n) := by
  have heq : nttLayerI (f, k) len =
      (List.range (256 / (2 * len))).foldl (nttBlockG len bfIn (fun x => x - 1)) (f, k) := by
    unfold nttLayerI
    apply foldl_fun_congr
    intro s b
    exact nttBlockI_eq len hlen s b
  obtain ⟨h1, h2, h3, h4⟩ := blockG_fold_char len hlen bfIn bfIm bfIn_sim (fun x => x - 1)
    (256 / (2 * len)) f k hf
  rw [heq]
  refine ⟨by rw [h1, iterate_sub_one], h2, ?_⟩
  intro n
  unfold mathLayer
  rcases Nat.lt_or_ge n 256 with hn | hn
  · rw [if_pos hn]
    have hdm := Nat.div_add_mod n (2 * len)
    have hrlt : n % (2 * len) < 2 * len := Nat.mod_lt _ (by omega)
    have hmul : 2 * len * (n / (2 * len)) < 2 * len * (256 / (2 * len)) := by omega
    have hbB : n / (2 * len) < 256 / (2 * len) := Nat.lt_of_mul_lt_mul_left hmul
    rcases Nat.lt_or_ge (n % (2 * len)) len with hrl | hrl
    · have h5 := (h3 (n / (2 * len)) (n % (2 * len)) hbB hrl).1
      rw [iterate_sub_one] at h5
      rw [show 2 * len * (n / (2 * len)) + n % (2 * len) = n from by omega] at h5
      rw [if_pos hrl]
      exact h5
    · have h5 := (h3 (n / (2 * len)) (n % (2 * len) - len) hbB (by omega)).2
      rw [iterate_sub_one] at h5
      rw [show 2 * len * (n / (2 * len)) + len + (n % (2 * len) - len) = n from by omega,
        show 2 * len * (n / (2 * len)) + (n % (2 * len) - len) = n - len from by omega,
        show n - len + len = n from by omega] at h5
      rw [if_neg (by omega)]
      exact h5
  · rw [if_neg (by omega), h4 n (by omega)]

theorem mathLayer_eval_lo (len : Nat) (kOf : Nat → Nat) (bf : Nat → Fq → Fq → Fq × Fq)
    (g : Nat → Fq) (n : Nat) (hn : n < 256) (hr : n % (2 * len) < len) :
    mathLayer len kOf bf g n = (bf (kOf (n / (2 * len))) (g n) (g (n + len))).1 := by
  unfold mathLayer
  rw [if_pos hn, if_pos hr]

theorem mathLayer_eval_hi (len : Nat) (kOf : Nat → Nat) (bf : Nat → Fq → Fq → Fq × Fq)
    (g : Nat → Fq) (n : Nat) (hn : n < 256) (hr : len ≤ n % (2 * len)) :
    mathLayer len kOf bf g n = (bf (kOf (n / (2 * len))) (g (n - len)) (g n)).2 := by
  unfold mathLayer
  rw [if_pos hn, if_neg (by omega)]

theorem mathLayer_eval_out (len : Nat) (kOf : Nat → Nat) (bf : Nat → Fq → Fq → Fq × Fq)
    (g : Nat → Fq) (n : Nat) (hn : 256 ≤ n) :
    mathLayer len kOf bf g n = g n := by
  unfold mathLayer
  rw [if_neg (by omega)]

/-- Mod/div bookkeeping for the partner position `n + len` inside a block. -/
theorem partner_up (len n : Nat) (hlen : 0 < len)
    (hdvd : 2 * len * (256 / (2 * len)) = 256) (hn : n < 256)
    (hr : n % (2 * len) < len) :
    n + len < 256 ∧ (n + len) / (2 * len) = n / (2 * len) ∧
      (n + len) % (2 * len) = n % (2 * len) + len := by
  have hdm := Nat.div_add_mod n (2 * len)
  have hrlt : n % (2 * len) < 2 * len := Nat.mod_lt _ (by omega)
  have hmul : 2 * len * (n / (2 * len)) < 2 * len * (256 / (2 * len)) := by omega
  have hbB : n / (2 * len) < 256 / (2 * len) := Nat.lt_of_mul_lt_mul_left hmul
  have hsucc : 2 * len * (n / (2 * len) + 1) ≤ 2 * len * (256 / (2 * len)) :=
    Nat.mul_le_mul_left _ (by omega)
  have hexp : 2 * len * (n / (2 * len) + 1) = 2 * len * (n / (2 * len)) + 2 * len := by
    ring
  rw [hexp] at hsucc
  rw [hdvd] at hsucc
  refine ⟨by omega, ?_, ?_⟩
  · rw [show n + len = 2 * len * (n / (2 * len)) + (n % (2 * len) + len) from by omega,
      Nat.mul_add_div (show 0 < 2 * len from by omega),
      Nat.div_eq_of_lt (show n % (2 * len) + len < 2 * len from by omega)]
    omega
  · rw [show n + len = 2 * len * (n / (2 * len)) + (n % (2 * len) + len) from by omega,
      Nat.mul_add_mod,
      Nat.mod_eq_of_lt (show n % (2 * len) + len < 2 * len from by omega)]

/-- Mod/div bookkeeping for the partner position `n - len` inside a block. -/
theorem partner_down (len n : Nat) (hlen : 0 < len) (hn : n < 256)
    (hr : len ≤ n % (2 * len)) :
    (n - len) / (2 * len) = n / (2 * len) ∧
      (n - len) % (2 * len) = n % (2 * len) - len := by
  have hdm := Nat.div_add_mod n (2 * len)
  have hrlt : n % (2 * len) < 2 * len := Nat.mod_lt _ (by omega)
  constructor
  · rw [show n - len = 2 * len * (n / (2 * len)) + (n % (2 * len) - len) from by omega,
      Nat.mul_add_div (show 0 < 2 * len from by omega),
      Nat.div_eq_of_lt (show n % (2 * len) - len < 2 * len from by omega)]
    omega
  · rw [show n - len = 2 * len * (n / (2 * len)) + (n % (2 * len) - len) from by omega,
      Nat.mul_add_mod,
      Nat.mod_eq_of_lt (show n % (2 * len) - len < 2 * len from by omega)]

/-- Broadcast in-range scaling, used to track the factor 2 contributed by each
matched layer pair. -/
def scaleD (a : Fq) (X : Nat → Fq) : Nat → Fq := fun n =>
  if n < 256 then a * X n else X n

theorem scaleD_scaleD (a b : Fq) (X : Nat → Fq) :
    scaleD a (scaleD b X) = scaleD (a * b) X := by
  funext n
  unfold scaleD
  split
  · ring
  · rfl

/-- A matched inverse/forward layer pair doubles every in-range coefficient. -/
theorem mathLayer_pair (len : Nat) (hlen : 0 < len)
    (hdvd : 2 * len * (256 / (2 * len)) = 256) (kF kI : Nat → Nat)
    (hz : ∀ b, b < 256 / (2 * len) → mzeta (kI b) * mzeta (kF b) = -1)
    (g : Nat → Fq) :
    mathLayer len kI bfIm (mathLayer len kF bfFm g) = scaleD 2 g := by
  funext n
  unfold scaleD
  rcases Nat.lt_or_ge n 256 with hn | hn
  swap
  · rw [if_neg (by omega), mathLayer_eval_out _ _ _ _ _ hn,
      mathLayer_eval_out _ _ _ _ _ hn]
  rw [if_pos hn]
  have hdm := Nat.div_add_mod n (2 * len)
  have hrlt : n % (2 * len) < 2 * len := Nat.mod_lt _ (by omega)
  have hmul : 2 * len * (n / (2 * len)) < 2 * len * (256 / (2 * len)) := by omega
  have hbB : n / (2 * len) < 256 / (2 * len) := Nat.lt_of_mul_lt_mul_left hmul
  have hzb := hz _ hbB
  rcases Nat.lt_or_ge (n % (2 * len)) len with hrl | hrl
  · obtain ⟨hp1, hp2, hp3⟩ := partner_up len n hlen hdvd hn hrl
    rw [mathLayer_eval_lo _ _ _ _ _ hn hrl,
      mathLayer_eval_lo _ _ _ _ _ hn hrl,
      mathLayer_eval_hi _ _ _ _ _ hp1 (by omega), hp2,
      show n + len - len = n from by omega]
    simp only [bfFm, bfIm]
    ring
  · obtain ⟨hp2, hp3⟩ := partner_down len n hlen hn hrl
    have hnlen : len ≤ n := by omega
    have hd1 : n - len < 256 := by omega
    rw [mathLayer_eval_hi _ _ _ _ _ hn hrl,
      mathLayer_eval_hi _ _ _ _ _ hn hrl,
      mathLayer_eval_lo _ _ _ _ _ hd1 (by omega), hp2,
      show n - len + len = n from by omega]
    simp only [bfFm, bfIm]
    linear_combination (-2 : Fq) * g n * hzb

/-- `mathLayer` (with either butterfly) commutes with broadcast scaling. -/
theorem mathLayer_scaleD (len : Nat) (hlen : 0 < len)
    (hdvd : 2 * len * (256 / (2 * len)) = 256) (kOf : Nat → Nat)
    (bf : Nat → Fq → Fq → Fq × Fq)
    (hbf : ∀ k x y a, bf k (a * x) (a * y) = (a * (bf k x y).1, a * (bf k x y).2))
    (a : Fq) (X : Nat → Fq) :
    mathLayer len kOf bf (scaleD a X) = scaleD a (mathLayer len kOf bf X) := by
  funext n
  rcases Nat.lt_or_ge n 256 with hn | hn
  swap
  · rw [mathLayer_eval_out _ _ _ _ _ hn]
    unfold scaleD
    rw [if_neg (by omega), if_neg (by omega), mathLayer_eval_out _ _ _ _ _ hn]
  have hdm := Nat.div_add_mod n (2 * len)
  have hrlt : n % (2 * len) < 2 * len := Nat.mod_lt _ (by omega)
  rcases Nat.lt_or_ge (n % (2 * len)) len with hrl | hrl
  · obtain ⟨hp1, hp2, hp3⟩ := partner_up len n hlen hdvd hn hrl
    rw [mathLayer_eval_lo _ _ _ _ _ hn hrl]
    unfold scaleD
    rw [if_pos hn, if_pos hn, if_pos hp1, mathLayer_eval_lo _ _ _ _ _ hn hrl, hbf]
  · have hd1 : n - len < 256 := by omega
    rw [mathLayer_eval_hi _ _ _ _ _ hn hrl]
    unfold scaleD
    rw [if_pos hn, if_pos hn, if_pos hd1, mathLayer_eval_hi _ _ _ _ _ hn hrl, hbf]

theorem bfFm_scale (k : Nat) (x y a : Fq) :
    bfFm k (a * x) (a * y) = (a * (bfFm k x y).1, a * (bfFm k x y).2) := by
  simp only [bfFm, Prod.mk.injEq]
  constructor <;> ring

theorem bfIm_scale (k : Nat) (x y a : Fq) :
    bfIm k (a * x) (a * y) = (a * (bfIm k x y).1, a * (bfIm k x y).2) := by
  simp only [bfIm, Prod.mk.injEq]
  constructor <;> ring

/-- Blockwise twiddle pairing between matched forward and inverse layers:
`ZETA_POW_BITREV[2B-1-b] * ZETA_POW_BITREV[B+b] = -1 mod q`. -/
theorem zeta_pair_128 : ∀ b, b < 1 → mzeta (1 - b) * mzeta (1 + b) = -1 := by
  decide

theorem zeta_pair_64 : ∀ b, b < 2 → mzeta (3 - b) * mzeta (2 + b) = -1 := by
  decide

theorem zeta_pair_32 : ∀ b, b < 4 → mzeta (7 - b) * mzeta (4 + b) = -1 := by
  decide

theorem zeta_pair_16 : ∀ b, b < 8 → mzeta (15 - b) * mzeta (8 + b) = -1 := by
  decide

theorem zeta_pair_8 : ∀ b, b < 16 → mzeta (31 - b) * mzeta (16 + b) = -1 := by
  decide

theorem zeta_pair_4 : ∀ b, b < 32 → mzeta (63 - b) * mzeta (32 + b) = -1 := by
  decide

theorem zeta_pair_2 : ∀ b, b < 64 → mzeta (127 - b) * mzeta (64 + b) = -1 := by
  decide

/-- The seven forward layers over `Z_q`, with the twiddle index schedule of
Algorithm 8. -/
def mathNtt (g : Nat → Fq) : Nat → Fq :=
  mathLayer 2 (fun b => 64 + b) bfFm (mathLayer 4 (fun b => 32 + b) bfFm
    (mathLayer 8 (fun b => 16 + b) bfFm (mathLayer 16 (fun b => 8 + b) bfFm
      (mathLayer 32 (fun b => 4 + b) bfFm (mathLayer 64 (fun b => 2 + b) bfFm
        (mathLayer 128 (fun b => 1 + b) bfFm g))))))

/-- The seven inverse layers over `Z_q`, with the twiddle index schedule of
Algorithm 9 (before the final scalar multiplication). -/
def mathNttInv (g : Nat → Fq) : Nat → Fq :=
  mathLayer 128 (fun b => 1 - b) bfIm (mathLayer 64 (fun b => 3 - b) bfIm
    (mathLayer 32 (fun b => 7 - b) bfIm (mathLayer 16 (fun b => 15 - b) bfIm
      (mathLayer 8 (fun b => 31 - b) bfIm (mathLayer 4 (fun b => 63 - b) bfIm
        (mathLayer 2 (fun b => 127 - b) bfIm g))))))

/-- The implementation `ntt` is canonical and computes `mathNtt` over `Z_q`. -/
theorem ntt_char (p : Nat → Nat) (hp : ∀ n, p n < Q) :
    (∀ n, ntt p n < Q) ∧
    ∀ n, ((ntt p n : Fq)) = mathNtt (fun m => (p m : Fq)) n := by
  unfold ntt
  simp only [List.foldl_cons, List.foldl_nil]
  obtain ⟨k1, c1, m1⟩ := nttLayerF_char 128 1 (by norm_num) (by norm_num) p hp
  rw [show ((1 : Nat) + 256 / (2 * 128)) = 2 from by norm_num] at k1
  set s1 := nttLayerF (p, 1) 128 with hs1
  obtain ⟨k2, c2, m2⟩ := nttLayerF_char 64 s1.2 (by norm_num) (by norm_num) s1.1 c1
  rw [show (s1.1, s1.2) = s1 from rfl] at k2 c2 m2
  rw [k1] at k2 m2
  rw [show ((2 : Nat) + 256 / (2 * 64)) = 4 from by norm_num] at k2
  rw [funext m1] at m2
  set s2 := nttLayerF s1 64 with hs2
  obtain ⟨k3, c3, m3⟩ := nttLayerF_char 32 s2.2 (by norm_num) (by norm_num) s2.1 c2
  rw [show (s2.1, s2.2) = s2 from rfl] at k3 c3 m3
  rw [k2] at k3 m3
  rw [show ((4 : Nat) + 256 / (2 * 32)) = 8 from by norm_num] at k3
  rw [funext m2] at m3
  set s3 := nttLayerF s2 32 with hs3
  obtain ⟨k4, c4, m4⟩ := nttLayerF_char 16 s3.2 (by norm_num) (by norm_num) s3.1 c3
  rw [show (s3.1, s3.2) = s3 from rfl] at k4 c4 m4
  rw [k3] at k4 m4
  rw [show ((8 : Nat) + 256 / (2 * 16)) = 16 from by norm_num] at k4
  rw [funext m3] at m4
  set s4 := nttLayerF s3 16 with hs4
  obtain ⟨k5, c5, m5⟩ := nttLayerF_char 8 s4.2 (by norm_num) (by norm_num) s4.1 c4
  rw [show (s4.1, s4.2) = s4 from rfl] at k5 c5 m5
  rw [k4] at k5 m5
  rw [show ((16 : Nat) + 256 / (2 * 8)) = 32 from by norm_num] at k5
  rw [funext m4] at m5
  set s5 := nttLayerF s4 8 with hs5
  obtain ⟨k6, c6, m6⟩ := nttLayerF_char 4 s5.2 (by norm_num) (by norm_num) s5.1 c5
  rw [show (s5.1, s5.2) = s5 from rfl] at k6 c6 m6
  rw [k5] at k6 m6
  rw [show ((32 : Nat) + 256 / (2 * 4)) = 64 from by norm_num] at k6
  rw [funext m5] at m6
  set s6 := nttLayerF s5 4 with hs6
  obtain ⟨k7, c7, m7⟩ := nttLayerF_char 2 s6.2 (by norm_num) (by norm_num) s6.1 c6
  rw [show (s6.1, s6.2) = s6 from rfl] at k7 c7 m7
  rw [k6] at k7 m7
  rw [funext m6] at m7
  exact ⟨c7, m7⟩

/-- The implementation `ntt_inverse` is canonical and computes the scalar 3303 times
`mathNttInv` over `Z_q`. -/
theorem ntt_inverse_char (p : Nat → Nat) (hp : ∀ n, p n < Q) :
    (∀ n, ntt_inverse p n < Q) ∧
    ∀ n, ((ntt_inverse p n : Fq)) =
      ((3303 : Nat) : Fq) * mathNttInv (fun m => (p m : Fq)) n := by
  unfold ntt_inverse
  simp only [List.foldl_cons, List.foldl_nil]
  obtain ⟨k1, c1, m1⟩ := nttLayerI_char 2 127 (by norm_num) (by norm_num) p hp
  rw [show ((127 : Nat) - 256 / (2 * 2)) = 63 from by norm_num] at k1
  set s1 := nttLayerI (p, 127) 2 with hs1
  obtain ⟨k2, c2, m2⟩ := nttLayerI_char 4 s1.2 (by norm_num) (by norm_num) s1.1 c1
  rw [show (s1.1, s1.2) = s1 from rfl] at k2 c2 m2
  rw [k1] at k2 m2
  rw [show ((63 : Nat) - 256 / (2 * 4)) = 31 from by norm_num] at k2
  rw [funext m1] at m2
  set s2 := nttLayerI s1 4 with hs2
  obtain ⟨k3, c3, m3⟩ := nttLayerI_char 8 s2.2 (by norm_num) (by norm_num) s2.1 c2
  rw [show (s2.1, s2.2) = s2 from rfl] at k3 c3 m3
  rw [k2] at k3 m3
  rw [show ((31 : Nat) - 256 / (2 * 8)) = 15 from by norm_num] at k3
  rw [funext m2] at m3
  set s3 := nttLayerI s2 8 with hs3
  obtain ⟨k4, c4, m4⟩ := nttLayerI_char 16 s3.2 (by norm_num) (by norm_num) s3.1 c3
  rw [show (s3.1, s3.2) = s3 from rfl] at k4 c4 m4
  rw [k3] at k4 m4
  rw [show ((15 : Nat) - 256 / (2 * 16)) = 7 from by norm_num] at k4
  rw [funext m3] at m4
  set s4 := nttLayerI s3 16 with hs4
  obtain ⟨k5, c5, m5⟩ := nttLayerI_char 32 s4.2 (by norm_num) (by norm_num) s4.1 c4
  rw [show (s4.1, s4.2) = s4 from rfl] at k5 c5 m5
  rw [k4] at k5 m5
  rw [show ((7 : Nat) - 256 / (2 * 32)) = 3 from by norm_num] at k5
  rw [funext m4] at m5
  set s5 := nttLayerI s4 32 with hs5
  obtain ⟨k6, c6, m6⟩ := nttLayerI_char 64 s5.2 (by norm_num) (by norm_num) s5.1 c5
  rw [show (s5.1, s5.2) = s5 from rfl] at k6 c6 m6
  rw [k5] at k6 m6
  rw [show ((3 : Nat) - 256 / (2 * 64)) = 1 from by norm_num] at k6
  rw [funext m5] at m6
  set s6 := nttLayerI s5 64 with hs6
  obtain ⟨k7, c7, m7⟩ := nttLayerI_char 128 s6.2 (by norm_num) (by norm_num) s6.1 c6
  rw [show (s6.1, s6.2) = s6 from rfl] at k7 c7 m7
  rw [k6] at k7 m7
  rw [funext m6] at m7
  have h3303 : (3303 : Nat) < Q := by rw [Q_eq]; norm_num
  constructor
  · intro n
    exact fieldMul_lt h3303 (c7 n)
  · intro n
    rw [cast_fieldMul h3303 (c7 n), m7 n]
    rfl

/-- The seven matched layer pairs collapse to the broadcast factor 128. -/
theorem mathNttInv_mathNtt (g : Nat → Fq) :
    mathNttInv (mathNtt g) = scaleD ((128 : Nat) : Fq) g := by
  unfold mathNtt mathNttInv
  rw [mathLayer_pair 2 (by norm_num) (by norm_num) _ _ zeta_pair_2,
    mathLayer_scaleD 4 (by norm_num) (by norm_num) _ bfIm bfIm_scale,
    mathLayer_pair 4 (by norm_num) (by norm_num) _ _ zeta_pair_4,
    scaleD_scaleD,
    mathLayer_scaleD 8 (by norm_num) (by norm_num) _ bfIm bfIm_scale,
    mathLayer_pair 8 (by norm_num) (by norm_num) _ _ zeta_pair_8,
    scaleD_scaleD,
    mathLayer_scaleD 16 (by norm_num) (by norm_num) _ bfIm bfIm_scale,
    mathLayer_pair 16 (by norm_num) (by norm_num) _ _ zeta_pair_16,
    scaleD_scaleD,
    mathLayer_scaleD 32 (by norm_num) (by norm_num) _ bfIm bfIm_scale,
    mathLayer_pair 32 (by norm_num) (by norm_num) _ _ zeta_pair_32,
    scaleD_scaleD,
    mathLayer_scaleD 64 (by norm_num) (by norm_num) _ bfIm bfIm_scale,
    mathLayer_pair 64 (by norm_num) (by norm_num) _ _ zeta_pair_64,
    scaleD_scaleD,
    mathLayer_scaleD 128 (by norm_num) (by norm_num) _ bfIm bfIm_scale,
    mathLayer_pair 128 (by norm_num) (by norm_num) _ _ zeta_pair_128,
    scaleD_scaleD]
  congr 1

/-- C2: for every polynomial with canonical coefficients,
`ntt_inverse (ntt p) = p`; the final broadcast factor 3303 of `ntt_inverse` is the
inverse of 128 modulo `Q`. -/
theorem ntt_inverse_ntt_roundtrip (p : Nat → Nat) (hp : ∀ n, p n < Q) :
    (∀ i, i < 256 → ntt_inverse (ntt p) i = p i) ∧ 3303 * 128 % Q = 1 := by
  obtain ⟨hc, hm⟩ := ntt_char p hp
  obtain ⟨hic, him⟩ := ntt_inverse_char (ntt p) hc
  refine ⟨?_, by decide⟩
  intro i hi
  apply cast_inj_of_lt (hic i) (hp i)
  rw [him i, funext hm, mathNttInv_mathNtt]
  unfold scaleD
  rw [if_pos hi, show ((3303 : Nat) : Fq) * (((128 : Nat) : Fq) * ((p i : Nat) : Fq)) =
      ((3303 * 128 : Nat) : Fq) * ((p i : Nat) : Fq) from by push_cast; ring,
    show ((3303 * 128 : Nat) : Fq) = 1 from by decide, one_mul]

/-- Witness for C2 at the zero polynomial. -/
theorem ntt_inverse_ntt_roundtrip_witness :
    (∀ i, i < 256 → ntt_inverse (ntt (fun _ => 0)) i = (fun _ => 0 : Nat → Nat) i) ∧
      3303 * 128 % Q = 1 :=
  ntt_inverse_ntt_roundtrip (fun _ => 0) (fun _ => by show (0 : Nat) < Q; rw [Q_eq]; omega)

/-! ### Polynomial operations and NTT-domain multiplication -/

/-- `impl Add<&Polynomial> for &Polynomial`: coefficient-wise addition. -/
def polyAdd (a b : Nat → Nat) : Nat → Nat := fun i => fieldAdd (a i) (b i)

/-- `impl Sub<&Polynomial> for &Polynomial`: coefficient-wise subtraction. -/
def polySub (a b : Nat → Nat) : Nat → Nat := fun i => fieldSub (a i) (b i)

/-- `impl Mul<&Polynomial> for FieldElement`: broadcast scalar multiplication. -/
def scalarPolyMul (c : Nat) (a : Nat → Nat) : Nat → Nat := fun i => fieldMul c (a i)

/-- Algorithm 10, `Mul<&NttPolynomial> for &NttPolynomial`: 128 base-case
multiplications written into a zero-initialised output. -/
def nttMul (a b : Nat → Nat) : Nat → Nat :=
  (List.range 128).foldl (fun out i =>
    let c := base_case_multiply (a (2 * i)) (a (2 * i + 1)) (b (2 * i)) (b (2 * i + 1)) i
    upd (upd out (2 * i) c.1) (2 * i + 1) c.2) (fun _ => 0)

/-- The reference coefficient-domain multiplication in `R_q` (`Mul<&Polynomial>` in
the test module of `algebra.rs`): schoolbook double loop with a sign flip on
wrap-around past `X^256`. -/
def polyMul (a b : Nat → Nat) : Nat → Nat :=
  (List.range 256).foldl (fun out i =>
    (List.range 256).foldl (fun out j =>
      let si : Nat × Nat := if i + j < 256 then (1, i + j) else (Q - 1, i + j - 256)
      upd out si.2 (fieldAdd (out si.2) (fieldMul (fieldMul si.1 (a i)) (b j)))) out) (fun _ => 0)

/-- Point characterization of `nttMul`: the pair at block `i` is
`base_case_multiply` of the input pairs; untouched positions stay zero. -/
theorem nttMul_char (a b : Nat → Nat) :
    ∀ m, m ≤ 128 →
      (∀ i, i < m →
        ((List.range m).foldl (fun out i =>
          let c := base_case_multiply (a (2 * i)) (a (2 * i + 1)) (b (2 * i)) (b (2 * i + 1)) i
          upd (upd out (2 * i) c.1) (2 * i + 1) c.2) (fun _ => 0)) (2 * i) =
          (base_case_multiply (a (2 * i)) (a (2 * i + 1)) (b (2 * i)) (b (2 * i + 1)) i).1 ∧
        ((List.range m).foldl (fun out i =>
          let c := base_case_multiply (a (2 * i)) (a (2 * i + 1)) (b (2 * i)) (b (2 * i + 1)) i
          upd (upd out (2 * i) c.1) (2 * i + 1) c.2) (fun _ => 0)) (2 * i + 1) =
          (base_case_multiply (a (2 * i)) (a (2 * i + 1)) (b (2 * i)) (b (2 * i + 1)) i).2) ∧
      (∀ n, 2 * m ≤ n →
        ((List.range m).foldl (fun out i =>
          let c := base_case_multiply (a (2 * i)) (a (2 * i + 1)) (b (2 * i)) (b (2 * i + 1)) i
          upd (upd out (2 * i) c.1) (2 * i + 1) c.2) (fun _ => 0)) n = 0) := by
  intro m
  induction m with
  | zero => exact fun _ => ⟨fun i hi => absurd hi (by omega), fun n _ => rfl⟩
  | succ m ih =>
    intro hm
    obtain ⟨ih1, ih2⟩ := ih (by omega)
    rw [List.range_succ]
    simp only [List.foldl_append, List.foldl_cons, List.foldl_nil]
    constructor
    · intro i hi
      rcases Nat.lt_or_ge i m with him | him
      · constructor
        · show upd _ _ _ (2 * i) = _
          rw [upd_eval, if_neg (by omega), upd_eval, if_neg (by omega)]
          exact (ih1 i him).1
        · show upd _ _ _ (2 * i + 1) = _
          rw [upd_eval, if_neg (by omega), upd_eval, if_neg (by omega)]
          exact (ih1 i him).2
      · have hie : i = m := by omega
        subst hie
        constructor
        · show upd _ _ _ (2 * i) = _
          rw [upd_eval, if_neg (by omega), upd_eval, if_pos rfl]
        · show upd _ _ _ (2 * i + 1) = _
          rw [upd_eval, if_pos rfl]
    · intro n hn
      show upd _ _ _ n = 0
      rw [upd_eval, if_neg (by omega), upd_eval, if_neg (by omega)]
      exact ih2 n (by omega)

/-- Cast of `Q - 1` into `Z_q` is `-1`. -/
theorem castQm1 : ((Q - 1 : Nat) : Fq) = -1 := by rw [Q_eq]; decide

/-- Convolution kernel of the negacyclic product: `+1` when `i + j = t`, `-1` when
`i + j = t + 256` (wrap-around past `X^256` with `X^256 = -1`). -/
def convK (i j t : Nat) : Fq :=
  (if i + j = t then 1 else 0) - (if i + j = t + 256 then 1 else 0)

/-- The negacyclic convolution over `Z_q`. -/
def mathConv (x y : Nat → Fq) : Nat → Fq := fun t =>
  ∑ i ∈ Finset.range 256, ∑ j ∈ Finset.range 256, convK i j t * (x i * y j)

/-- One schoolbook term in the sign-index form used by the implementation. -/
def convTerm (x y : Nat → Fq) (i j t : Nat) : Fq :=
  if (if i + j < 256 then i + j else i + j - 256) = t then
    (if i + j < 256 then 1 else -1) * (x i * y j)
  else 0

theorem convTerm_eq_convK (x y : Nat → Fq) (i j t : Nat)
    (hi : i < 256) (hj : j < 256) (ht : t < 256) :
    convTerm x y i j t = convK i j t * (x i * y j) := by
  rcases Nat.lt_or_ge (i + j) 256 with h | h
  · simp only [convTerm, convK, if_pos h, if_neg (show ¬ i + j = t + 256 by omega)]
    rcases eq_or_ne (i + j) t with he | hne
    · simp only [if_pos he]; ring
    · simp only [if_neg hne]; ring
  · simp only [convTerm, convK, if_neg (show ¬ i + j < 256 by omega),
      if_neg (show ¬ i + j = t by omega)]
    rcases eq_or_ne (i + j) (t + 256) with he | hne
    · simp only [if_pos he, if_pos (show i + j - 256 = t by omega)]; ring
    · simp only [if_neg hne, if_neg (show ¬ i + j - 256 = t by omega)]; ring

/-- The inner-loop body of the schoolbook multiplication. -/
def pmStep (a b : Nat → Nat) (i : Nat) (o : Nat → Nat) (j : Nat) : Nat → Nat :=
  let si : Nat × Nat := if i + j < 256 then (1, i + j) else (Q - 1, i + j - 256)
  upd o si.2 (fieldAdd (o si.2) (fieldMul (fieldMul si.1 (a i)) (b j)))

/-- Invariant of the inner schoolbook loop: canonical state whose cast accumulates
the sign-index terms. -/
theorem pmInner_char (a b : Nat → Nat) (ha : ∀ n, a n < Q) (hb : ∀ n, b n < Q)
    (i : Nat) (out : Nat → Nat) (hout : ∀ t, out t < Q) :
    ∀ J, (∀ t, (List.range J).foldl (pmStep a b i) out t < Q) ∧
      (∀ t, (((List.range J).foldl (pmStep a b i) out t : Nat) : Fq) =
        ((out t : Nat) : Fq) +
          ∑ j ∈ Finset.range J, convTerm (fun n => ((a n : Nat) : Fq))
            (fun n => ((b n : Nat) : Fq)) i j t) := by
  have h1Q : (1 : Nat) < Q := by rw [Q_eq]; omega
  have hQm1 : Q - 1 < Q := by rw [Q_eq]; omega
  intro J
  induction J with
  | zero => exact ⟨hout, fun t => by simp⟩
  | succ J ih =>
    obtain ⟨ih1, ih2⟩ := ih
    rw [List.range_succ]
    simp only [List.foldl_append, List.foldl_cons, List.foldl_nil]
    rcases Nat.lt_or_ge (i + J) 256 with hc | hc
    · have hval : fieldMul (fieldMul 1 (a i)) (b J) < Q :=
        fieldMul_lt (fieldMul_lt h1Q (ha i)) (hb J)
      have hcT : ∀ u, convTerm (fun n => ((a n : Nat) : Fq)) (fun n => ((b n : Nat) : Fq)) i J u =
          if i + J = u then ((a i : Nat) : Fq) * ((b J : Nat) : Fq) else 0 := by
        intro u
        simp only [convTerm, if_pos hc, one_mul]
      constructor
      · intro t
        simp only [pmStep, if_pos hc, upd_eval]
        rcases eq_or_ne t (i + J) with rfl | hne
        · rw [if_pos rfl]
          exact fieldAdd_lt (ih1 _) hval
        · rw [if_neg hne]
          exact ih1 t
      · intro t
        simp only [pmStep, if_pos hc, upd_eval]
        rw [Finset.sum_range_succ, hcT t]
        rcases eq_or_ne t (i + J) with rfl | hne
        · rw [if_pos rfl, if_pos rfl, cast_fieldAdd (ih1 _) hval, ih2 _,
            cast_fieldMul (fieldMul_lt h1Q (ha i)) (hb J), cast_fieldMul h1Q (ha i)]
          push_cast
          ring
        · rw [if_neg hne, if_neg (by omega), ih2 t, add_zero]
    · have hval : fieldMul (fieldMul (Q - 1) (a i)) (b J) < Q :=
        fieldMul_lt (fieldMul_lt hQm1 (ha i)) (hb J)
      have hcT : ∀ u, convTerm (fun n => ((a n : Nat) : Fq)) (fun n => ((b n : Nat) : Fq)) i J u =
          if i + J - 256 = u then -(((a i : Nat) : Fq) * ((b J : Nat) : Fq)) else 0 := by
        intro u
        simp only [convTerm, if_neg (show ¬ i + J < 256 by omega)]
        rcases eq_or_ne (i + J - 256) u with he | hne
        · rw [if_pos he, if_pos he]; ring
        · rw [if_neg hne, if_neg hne]
      constructor
      · intro t
        simp only [pmStep, if_neg (show ¬ i + J < 256 by omega), upd_eval]
        rcases eq_or_ne t (i + J - 256) with he | hne
        · rw [if_pos he, ← he]
          exact fieldAdd_lt (ih1 t) hval
        · rw [if_neg hne]
          exact ih1 t
      · intro t
        simp only [pmStep, if_neg (show ¬ i + J < 256 by omega), upd_eval]
        rw [Finset.sum_range_succ, hcT t]
        rcases eq_or_ne t (i + J - 256) with he | hne
        · rw [if_pos he, if_pos he.symm, ← he, cast_fieldAdd (ih1 t) hval, ih2 t,
            cast_fieldMul (fieldMul_lt hQm1 (ha i)) (hb J), cast_fieldMul hQm1 (ha i), castQm1]
          ring
        · rw [if_neg hne, if_neg (by omega), ih2 t, add_zero]

/-- Invariant of the outer schoolbook loop. -/
theorem pmOuter_char (a b : Nat → Nat) (ha : ∀ n, a n < Q) (hb : ∀ n, b n < Q) :
    ∀ I, (∀ t, (List.range I).foldl
        (fun out i => (List.range 256).foldl (pmStep a b i) out) (fun _ => 0) t < Q) ∧
      (∀ t, ((((List.range I).foldl
          (fun out i => (List.range 256).foldl (pmStep a b i) out) (fun _ => 0)) t : Nat) : Fq) =
        ∑ i ∈ Finset.range I, ∑ j ∈ Finset.range 256,
          convTerm (fun n => ((a n : Nat) : Fq)) (fun n => ((b n : Nat) : Fq)) i j t) := by
  intro I
  induction I with
  | zero =>
    refine ⟨fun t => ?_, fun t => by simp⟩
    show (0 : Nat) < Q
    rw [Q_eq]; omega
  | succ I ih =>
    obtain ⟨ih1, ih2⟩ := ih
    rw [show List.range (I + 1) = List.range I ++ [I] from List.range_succ I]
    simp only [List.foldl_append, List.foldl_cons, List.foldl_nil]
    obtain ⟨h1, h2⟩ := pmInner_char a b ha hb I _ ih1 256
    refine ⟨h1, fun t => ?_⟩
    rw [h2 t, ih2 t, ← Finset.sum_range_succ]

/-- The schoolbook product is canonical and computes the negacyclic convolution. -/
theorem polyMul_char (a b : Nat → Nat) (ha : ∀ n, a n < Q) (hb : ∀ n, b n < Q) :
    (∀ t, polyMul a b t < Q) ∧
    (∀ t, t < 256 → ((polyMul a b t : Nat) : Fq) =
      mathConv (fun n => ((a n : Nat) : Fq)) (fun n => ((b n : Nat) : Fq)) t) := by
  obtain ⟨h1, h2⟩ := pmOuter_char a b ha hb 256
  have hpm : polyMul a b = (List.range 256).foldl
      (fun out i => (List.range 256).foldl (pmStep a b i) out) (fun _ => 0) := rfl
  refine ⟨fun t => by rw [hpm]; exact h1 t, fun t ht => ?_⟩
  rw [hpm, h2 t]
  unfold mathConv
  refine Finset.sum_congr rfl fun i hi => Finset.sum_congr rfl fun j hj => ?_
  exact convTerm_eq_convK _ _ i j t (Finset.mem_range.mp hi) (Finset.mem_range.mp hj) ht

/-! ### The forward NTT as evaluation at bit-reversed powers of zeta -/

/-- Reverse the low 8 bits of `v`. -/
def bitRev8 (v : Nat) : Nat :=
  (List.range 8).foldl (fun acc i => 2 * acc + v / 2 ^ i % 2) 0

/-- `zeta^(bitRev8 v) mod q` in `Z_q` (`zeta = 17`): the evaluation point attached to
node `v` of the NTT butterfly tree. -/
def eta (v : Nat) : Fq := ((17 ^ bitRev8 v % 3329 : Nat) : Fq)

/-- Squaring the twiddle factor descends one level of the butterfly tree. -/
theorem eta_sq : ∀ v, v < 128 → 1 ≤ v → mzeta v * mzeta v = eta v := by decide

/-- The even child of node `v` evaluates at `+ZETA_POW_BITREV[v]`. -/
theorem eta_even : ∀ v, v < 128 → 1 ≤ v → eta (2 * v) = mzeta v := by decide

/-- The odd child of node `v` evaluates at `-ZETA_POW_BITREV[v]`. -/
theorem eta_odd : ∀ v, v < 128 → 1 ≤ v → eta (2 * v + 1) = -(mzeta v) := by decide

/-- The leaves of the butterfly tree evaluate at `GAMMA[b]`. -/
theorem eta_gamma : ∀ b, b < 128 → eta (128 + b) = mgamma b := by decide

/-- Each `GAMMA[b]` is an odd power of the primitive 256th root of unity 17, so its
128th power is `-1`. -/
theorem gamma_pow_128 : ∀ b, b < 128 → mgamma b ^ 128 = -1 := by
  have h : ∀ b, b < 128 → gamma b ^ 128 % 3329 = 3328 := by decide
  intro b hb
  have hc : mgamma b ^ 128 = (((gamma b ^ 128 : Nat) : Fq)) := by
    unfold mgamma
    push_cast
    ring
  rw [hc, ← ZMod.natCast_mod, h b hb]
  decide

/-- Splitting a sum over `range (2*B)` into even and odd indices. -/
theorem sum_range_even_odd (h : Nat → Fq) (B : Nat) :
    ∑ u ∈ Finset.range (2 * B), h u =
      (∑ u ∈ Finset.range B, h (2 * u)) + ∑ u ∈ Finset.range B, h (2 * u + 1) := by
  induction B with
  | zero => simp
  | succ B ih =>
    rw [show 2 * (B + 1) = 2 * B + 1 + 1 from by ring, Finset.sum_range_succ,
      Finset.sum_range_succ, ih, Finset.sum_range_succ, Finset.sum_range_succ]
    ring

/-- Residue invariant of the forward NTT at block size `m`: block `b` holds the
twisted sums of `p` at evaluation node `256/m + b`. -/
def stageInv (m : Nat) (p f : Nat → Fq) : Prop :=
  ∀ b s, s < m → m * b + s < 256 →
    f (m * b + s) = ∑ u ∈ Finset.range (256 / m), eta (256 / m + b) ^ u * p (s + m * u)

theorem stageInv_init (p : Nat → Fq) : stageInv 256 p p := by
  intro b s hs hn
  have hb : b = 0 := by omega
  subst hb
  simp

/-- One forward butterfly layer descends the invariant from block size `2*len` to
block size `len`. -/
theorem stageInv_step (len B : Nat) (hlen : 0 < len) (h256 : len * (2 * B) = 256)
    (hM : 256 / (2 * len) = B) (hq : 256 / len = 2 * B) (hB1 : 1 ≤ B)
    (hBle : 2 * B ≤ 128) (p g : Nat → Fq) (hInv : stageInv (2 * len) p g) :
    stageInv len p (mathLayer len (fun b => B + b) bfFm g) := by
  have h256' : 2 * len * B = 256 := by rw [← h256]; ring
  have hInv' : ∀ b s, s < 2 * len → 2 * len * b + s < 256 →
      g (2 * len * b + s) = ∑ u ∈ Finset.range B, eta (B + b) ^ u * p (s + 2 * len * u) := by
    intro b s h1 h2
    have hh := hInv b s h1 h2
    rw [hM] at hh
    exact hh
  intro b s hs hn
  rw [hq]
  have hb2B : b < 2 * B := by
    by_contra hcon
    push_neg at hcon
    have hcc : len * (2 * B) ≤ len * b := Nat.mul_le_mul_left len hcon
    omega
  obtain ⟨b', ε, rfl, hε⟩ : ∃ b2 e2, b = 2 * b2 + e2 ∧ e2 < 2 :=
    ⟨b / 2, b % 2, by omega, by omega⟩
  have hb'B : b' < B := by omega
  have hz1 : 1 ≤ B + b' := by omega
  have hz2 : B + b' < 128 := by omega
  have hmul1 : 2 * len * (b' + 1) = 2 * len * b' + 2 * len := by ring
  have hmul2 : 2 * len * (b' + 1) ≤ 2 * len * B :=
    Nat.mul_le_mul_left (2 * len) (by omega)
  rcases (by omega : ε = 0 ∨ ε = 1) with rfl | rfl
  · have hidx : len * (2 * b' + 0) + s = 2 * len * b' + s := by ring
    rw [hidx]
    rw [hidx] at hn
    have hn' : 2 * len * b' + s < 256 := hn
    have hm : (2 * len * b' + s) % (2 * len) = s := by
      rw [Nat.mul_add_mod, Nat.mod_eq_of_lt (by omega)]
    have hd : (2 * len * b' + s) / (2 * len) = b' := by
      rw [Nat.mul_add_div (by omega), Nat.div_eq_of_lt (by omega)]
      omega
    rw [mathLayer_eval_lo len _ bfFm g _ hn' (by omega), hd]
    have hpart : 2 * len * b' + s + len = 2 * len * b' + (s + len) := by ring
    have hglo := hInv' b' s (by omega) hn'
    have hghi := hInv' b' (s + len) (by omega) (by omega)
    show g (2 * len * b' + s) + mzeta (B + b') * g (2 * len * b' + s + len) = _
    rw [hpart, hglo, hghi, Finset.mul_sum]
    simp only [show 2 * B + (2 * b' + 0) = 2 * (B + b') from by ring,
      eta_even (B + b') hz2 hz1]
    rw [sum_range_even_odd (fun u => mzeta (B + b') ^ u * p (s + len * u)) B]
    congr 1
    · refine Finset.sum_congr rfl fun u _ => ?_
      rw [pow_mul, pow_two, eta_sq (B + b') hz2 hz1,
        show s + len * (2 * u) = s + 2 * len * u from by ring]
    · refine Finset.sum_congr rfl fun u _ => ?_
      rw [pow_succ, pow_mul, pow_two, eta_sq (B + b') hz2 hz1,
        show s + len * (2 * u + 1) = s + len + 2 * len * u from by ring]
      ring
  · have hidx : len * (2 * b' + 1) + s = 2 * len * b' + (len + s) := by ring
    rw [hidx]
    rw [hidx] at hn
    have hn' : 2 * len * b' + (len + s) < 256 := hn
    have hm : (2 * len * b' + (len + s)) % (2 * len) = len + s := by
      rw [Nat.mul_add_mod, Nat.mod_eq_of_lt (by omega)]
    have hd : (2 * len * b' + (len + s)) / (2 * len) = b' := by
      rw [Nat.mul_add_div (by omega), Nat.div_eq_of_lt (by omega)]
      omega
    rw [mathLayer_eval_hi len _ bfFm g _ hn' (by omega), hd]
    have hpart : 2 * len * b' + (len + s) - len = 2 * len * b' + s := by omega
    have hglo := hInv' b' s (by omega) (by omega)
    have hghi := hInv' b' (len + s) (by omega) hn'
    show g (2 * len * b' + (len + s) - len) - mzeta (B + b') * g (2 * len * b' + (len + s)) = _
    rw [hpart, hglo, hghi, Finset.mul_sum]
    simp only [show 2 * B + (2 * b' + 1) = 2 * (B + b') + 1 from by ring,
      eta_odd (B + b') hz2 hz1]
    rw [sum_range_even_odd (fun u => (-(mzeta (B + b'))) ^ u * p (s + len * u)) B]
    rw [sub_eq_add_neg, ← Finset.sum_neg_distrib]
    congr 1
    · refine Finset.sum_congr rfl fun u _ => ?_
      rw [pow_mul, neg_sq, pow_two, eta_sq (B + b') hz2 hz1,
        show s + len * (2 * u) = s + 2 * len * u from by ring]
    · refine Finset.sum_congr rfl fun u _ => ?_
      rw [pow_succ, pow_mul, neg_sq, pow_two, eta_sq (B + b') hz2 hz1,
        show s + len * (2 * u + 1) = len + s + 2 * len * u from by ring]
      ring

/-- The seven forward layers establish the invariant at block size 2. -/
theorem mathNtt_stageInv (g : Nat → Fq) : stageInv 2 g (mathNtt g) := by
  unfold mathNtt
  refine stageInv_step 2 64 (by norm_num) (by norm_num) (by norm_num) (by norm_num)
    (by norm_num) (by norm_num) g _ ?_
  refine stageInv_step 4 32 (by norm_num) (by norm_num) (by norm_num) (by norm_num)
    (by norm_num) (by norm_num) g _ ?_
  refine stageInv_step 8 16 (by norm_num) (by norm_num) (by norm_num) (by norm_num)
    (by norm_num) (by norm_num) g _ ?_
  refine stageInv_step 16 8 (by norm_num) (by norm_num) (by norm_num) (by norm_num)
    (by norm_num) (by norm_num) g _ ?_
  refine stageInv_step 32 4 (by norm_num) (by norm_num) (by norm_num) (by norm_num)
    (by norm_num) (by norm_num) g _ ?_
  refine stageInv_step 64 2 (by norm_num) (by norm_num) (by norm_num) (by norm_num)
    (by norm_num) (by norm_num) g _ ?_
  refine stageInv_step 128 1 (by norm_num) (by norm_num) (by norm_num) (by norm_num)
    (by norm_num) (by norm_num) g _ ?_
  exact stageInv_init g

/-- The pair at block `b` of the forward NTT is the twisted sum at `GAMMA[b]`. -/
theorem mathNtt_formula (g : Nat → Fq) (b s : Nat) (hb : b < 128) (hs : s < 2) :
    mathNtt g (2 * b + s) = ∑ u ∈ Finset.range 128, mgamma b ^ u * g (s + 2 * u) := by
  have h := mathNtt_stageInv g b s hs (by omega)
  rw [h, show (256 : Nat) / 2 = 128 from by norm_num]
  simp only [eta_gamma b hb]

/-- Geometric-weighted indicator sum: only the index `u` with `c = 2*u + d`
contributes. -/
theorem sum_pow_shift_indicator (γ : Fq) (c d U : Nat) :
    (∑ u ∈ Finset.range U, γ ^ u * (if c = 2 * u + d then (1 : Fq) else 0)) =
      if d ≤ c ∧ (c - d) % 2 = 0 ∧ c - d < 2 * U then γ ^ ((c - d) / 2) else 0 := by
  induction U with
  | zero =>
    rw [Finset.range_zero, Finset.sum_empty, if_neg (by omega)]
  | succ U ih =>
    rw [Finset.sum_range_succ, ih]
    rcases eq_or_ne c (2 * U + d) with hc | hc
    · rw [if_pos hc, if_neg (by omega), mul_one, zero_add,
        if_pos ⟨by omega, by omega, by omega⟩, show (c - d) / 2 = U from by omega]
    · rw [if_neg hc, mul_zero, add_zero]
      by_cases hP : d ≤ c ∧ (c - d) % 2 = 0 ∧ c - d < 2 * U
      · rw [if_pos hP, if_pos ⟨hP.1, hP.2.1, by omega⟩]
      · rw [if_neg hP, if_neg (fun h2 => hP ⟨h2.1, h2.2.1, by omega⟩)]

/-- The geometric twist of the convolution kernel: summing `γ^u * convK i j (2u+t0)`
collapses to a single power of `γ`, using `γ^128 = -1` to absorb the wrap-around. -/
theorem convK_twist_sum (γ : Fq) (hγ : γ ^ 128 = -1) (i j t0 : Nat)
    (hi : i < 256) (hj : j < 256) (ht : t0 < 2) :
    ∑ u ∈ Finset.range 128, γ ^ u * convK i j (2 * u + t0) =
      if (i + j) % 2 = t0 then γ ^ ((i + j - t0) / 2) else 0 := by
  simp only [convK, mul_sub,
    show ∀ u : Nat, 2 * u + t0 + 256 = 2 * u + (t0 + 256) from fun u => by ring]
  rw [Finset.sum_sub_distrib, sum_pow_shift_indicator γ (i + j) t0 128,
    sum_pow_shift_indicator γ (i + j) (t0 + 256) 128]
  by_cases hpar : (i + j) % 2 = t0
  · rcases Nat.lt_or_ge (i + j) (256 + t0) with hlt | hge
    · rw [if_pos ⟨by omega, by omega, by omega⟩, if_neg (by omega), sub_zero,
        if_pos hpar]
    · rw [if_neg (by omega), if_pos ⟨by omega, by omega, by omega⟩, if_pos hpar,
        show (i + j - t0) / 2 = (i + j - (t0 + 256)) / 2 + 128 from by omega,
        pow_add, hγ]
      ring
  · rw [if_neg (fun h2 => hpar (by omega)), if_neg (fun h2 => hpar (by omega)),
      if_neg hpar, sub_zero]

/-- Twisted evaluation of the even/odd interleaving of a coefficient array at the
powers of `γ`. -/
def twist (γ : Fq) (t0 : Nat) (x : Nat → Fq) : Fq :=
  ∑ u ∈ Finset.range 128, γ ^ u * x (2 * u + t0)

/-- The twisted evaluation of the negacyclic convolution in canonical double-sum
form. -/
theorem twist_conv_canon (γ : Fq) (hγ : γ ^ 128 = -1) (x y : Nat → Fq) (t0 : Nat)
    (ht : t0 < 2) :
    twist γ t0 (mathConv x y) =
      ∑ i ∈ Finset.range 256, ∑ j ∈ Finset.range 256,
        (if (i + j) % 2 = t0 then γ ^ ((i + j - t0) / 2) else 0) * (x i * y j) := by
  unfold twist mathConv
  simp only [Finset.mul_sum]
  rw [Finset.sum_comm]
  refine Finset.sum_congr rfl fun i hi => ?_
  rw [Finset.sum_comm]
  refine Finset.sum_congr rfl fun j hj => ?_
  simp only [← mul_assoc]
  rw [← Finset.sum_mul, ← Finset.sum_mul, convK_twist_sum γ hγ i j t0 (Finset.mem_range.mp hi)
    (Finset.mem_range.mp hj) ht]

set_option maxRecDepth 4000 in
/-- Even output pairs of the convolution twist: product formula. -/
theorem twist_conv_even (γ : Fq) (hγ : γ ^ 128 = -1) (x y : Nat → Fq) :
    twist γ 0 (mathConv x y) =
      twist γ 0 x * twist γ 0 y + γ * (twist γ 1 x * twist γ 1 y) := by
  rw [twist_conv_canon γ hγ x y 0 (by omega),
    show (256 : Nat) = 2 * 128 from by norm_num]
  simp only [sum_range_even_odd]
  simp only [Finset.sum_add_distrib]
  have hz1 : (∑ u ∈ Finset.range 128, ∑ v ∈ Finset.range 128,
      (if (2 * u + (2 * v + 1)) % 2 = 0 then γ ^ ((2 * u + (2 * v + 1) - 0) / 2) else 0) *
        (x (2 * u) * y (2 * v + 1))) = 0 := by
    refine Finset.sum_eq_zero fun u _ => Finset.sum_eq_zero fun v _ => ?_
    rw [if_neg (by omega), zero_mul]
  have hz2 : (∑ u ∈ Finset.range 128, ∑ v ∈ Finset.range 128,
      (if (2 * u + 1 + 2 * v) % 2 = 0 then γ ^ ((2 * u + 1 + 2 * v - 0) / 2) else 0) *
        (x (2 * u + 1) * y (2 * v))) = 0 := by
    refine Finset.sum_eq_zero fun u _ => Finset.sum_eq_zero fun v _ => ?_
    rw [if_neg (by omega), zero_mul]
  rw [hz1, hz2, add_zero, zero_add]
  unfold twist
  simp only [Nat.add_zero]
  rw [Finset.sum_mul_sum, Finset.sum_mul_sum]
  simp only [Finset.mul_sum]
  refine congrArg₂ (· + ·) ?_ ?_
  · refine Finset.sum_congr rfl fun u _ => Finset.sum_congr rfl fun v _ => ?_
    rw [if_pos (by omega), show (2 * u + 2 * v - 0) / 2 = u + v from by omega, pow_add]
    ring
  · refine Finset.sum_congr rfl fun u _ => Finset.sum_congr rfl fun v _ => ?_
    rw [if_pos (by omega), show (2 * u + 1 + (2 * v + 1) - 0) / 2 = u + v + 1 from by omega,
      pow_add, pow_add, pow_one]
    ring

set_option maxRecDepth 4000 in
/-- Odd output pairs of the convolution twist: product formula. -/
theorem twist_conv_odd (γ : Fq) (hγ : γ ^ 128 = -1) (x y : Nat → Fq) :
    twist γ 1 (mathConv x y) =
      twist γ 0 x * twist γ 1 y + twist γ 1 x * twist γ 0 y := by
  rw [twist_conv_canon γ hγ x y 1 (by omega),
    show (256 : Nat) = 2 * 128 from by norm_num]
  simp only [sum_range_even_odd]
  simp only [Finset.sum_add_distrib]
  have hz1 : (∑ u ∈ Finset.range 128, ∑ v ∈ Finset.range 128,
      (if (2 * u + 2 * v) % 2 = 1 then γ ^ ((2 * u + 2 * v - 1) / 2) else 0) *
        (x (2 * u) * y (2 * v))) = 0 := by
    refine Finset.sum_eq_zero fun u _ => Finset.sum_eq_zero fun v _ => ?_
    rw [if_neg (by omega), zero_mul]
  have hz2 : (∑ u ∈ Finset.range 128, ∑ v ∈ Finset.range 128,
      (if (2 * u + 1 + (2 * v + 1)) % 2 = 1 then γ ^ ((2 * u + 1 + (2 * v + 1) - 1) / 2) else 0) *
        (x (2 * u + 1) * y (2 * v + 1))) = 0 := by
    refine Finset.sum_eq_zero fun u _ => Finset.sum_eq_zero fun v _ => ?_
    rw [if_neg (by omega), zero_mul]
  rw [hz1, hz2]
  unfold twist
  simp only [Nat.add_zero]
  rw [Finset.sum_mul_sum, Finset.sum_mul_sum]
  refine congrArg₂ (· + ·) ?_ ?_
  · rw [zero_add]
    refine Finset.sum_congr rfl fun u _ => Finset.sum_congr rfl fun v _ => ?_
    rw [if_pos (by omega), show (2 * u + (2 * v + 1) - 1) / 2 = u + v from by omega, pow_add]
    ring
  · rw [add_zero]
    refine Finset.sum_congr rfl fun u _ => Finset.sum_congr rfl fun v _ => ?_
    rw [if_pos (by omega), show (2 * u + 1 + 2 * v - 1) / 2 = u + v from by omega, pow_add]
    ring

/-- `mathLayer` only reads positions below 256 when evaluated below 256. -/
theorem mathLayer_congr_lt (len : Nat) (kOf : Nat → Nat) (bf : Nat → Fq → Fq → Fq × Fq)
    (g1 g2 : Nat → Fq) (hlen : 0 < len) (hdvd : 2 * len * (256 / (2 * len)) = 256)
    (h : ∀ n, n < 256 → g1 n = g2 n) :
    ∀ n, n < 256 → mathLayer len kOf bf g1 n = mathLayer len kOf bf g2 n := by
  intro n hn
  unfold mathLayer
  rw [if_pos hn, if_pos hn]
  rcases Nat.lt_or_ge (n % (2 * len)) len with hr | hr
  · rw [if_pos hr, if_pos hr]
    obtain ⟨hp1, _, _⟩ := partner_up len n hlen hdvd hn hr
    rw [h n hn, h (n + len) hp1]
  · rw [if_neg (by omega), if_neg (by omega), h (n - len) (by omega), h n hn]

/-- `mathNttInv` only depends on input positions below 256 at outputs below 256. -/
theorem mathNttInv_congr_lt (g1 g2 : Nat → Fq) (h : ∀ n, n < 256 → g1 n = g2 n) :
    ∀ n, n < 256 → mathNttInv g1 n = mathNttInv g2 n := by
  unfold mathNttInv
  refine mathLayer_congr_lt 128 _ _ _ _ (by norm_num) (by norm_num) ?_
  refine mathLayer_congr_lt 64 _ _ _ _ (by norm_num) (by norm_num) ?_
  refine mathLayer_congr_lt 32 _ _ _ _ (by norm_num) (by norm_num) ?_
  refine mathLayer_congr_lt 16 _ _ _ _ (by norm_num) (by norm_num) ?_
  refine mathLayer_congr_lt 8 _ _ _ _ (by norm_num) (by norm_num) ?_
  refine mathLayer_congr_lt 4 _ _ _ _ (by norm_num) (by norm_num) ?_
  exact mathLayer_congr_lt 2 _ _ _ _ (by norm_num) (by norm_num) h

/-- The forward NTT pair at block `b` is the pair of twisted evaluations at
`GAMMA[b]`. -/
theorem mathNtt_twist (g : Nat → Fq) (b s : Nat) (hb : b < 128) (hs : s < 2) :
    mathNtt g (2 * b + s) = twist (mgamma b) s g := by
  rw [mathNtt_formula g b s hb hs]
  exact Finset.sum_congr rfl fun u _ => by rw [Nat.add_comm s (2 * u)]

/-- Canonicality and field values of the NTT-domain product `nttMul`. -/
theorem nttMul_cast (a b : Nat → Nat) (ha : ∀ n, a n < Q) (hb : ∀ n, b n < Q) :
    (∀ n, nttMul a b n < Q) ∧
    ∀ i, i < 128 →
      ((nttMul a b (2 * i) : Nat) : Fq) =
        ((a (2 * i) : Nat) : Fq) * ((b (2 * i) : Nat) : Fq) +
          mgamma i * (((a (2 * i + 1) : Nat) : Fq) * ((b (2 * i + 1) : Nat) : Fq)) ∧
      ((nttMul a b (2 * i + 1) : Nat) : Fq) =
        ((a (2 * i) : Nat) : Fq) * ((b (2 * i + 1) : Nat) : Fq) +
          ((a (2 * i + 1) : Nat) : Fq) * ((b (2 * i) : Nat) : Fq) := by
  obtain ⟨hin, hout⟩ := nttMul_char a b 128 (le_refl 128)
  have hQpos : 0 < Q := by rw [Q_eq]; omega
  constructor
  · intro n
    rcases Nat.lt_or_ge n 256 with hn | hn
    · obtain ⟨hc1, hc2⟩ := hin (n / 2) (by omega)
      obtain ⟨_, _, hb3⟩ := base_case_multiply_eq (n / 2) (ha (2 * (n / 2)))
        (ha (2 * (n / 2) + 1)) (hb (2 * (n / 2))) (hb (2 * (n / 2) + 1))
      rcases (by omega : n = 2 * (n / 2) ∨ n = 2 * (n / 2) + 1) with he | he
      · have hv : nttMul a b n = (base_case_multiply (a (2 * (n / 2)))
            (a (2 * (n / 2) + 1)) (b (2 * (n / 2))) (b (2 * (n / 2) + 1)) (n / 2)).1 := by
          rw [show nttMul a b n = nttMul a b (2 * (n / 2)) from by rw [← he]]
          exact hc1
        rw [hv, hb3]
        exact Nat.mod_lt _ hQpos
      · have hv : nttMul a b n = (base_case_multiply (a (2 * (n / 2)))
            (a (2 * (n / 2) + 1)) (b (2 * (n / 2))) (b (2 * (n / 2) + 1)) (n / 2)).2 := by
          rw [show nttMul a b n = nttMul a b (2 * (n / 2) + 1) from by rw [← he]]
          exact hc2
        rw [hv, hb3]
        exact Nat.mod_lt _ hQpos
    · have hv : nttMul a b n = 0 := hout n (by omega)
      rw [hv, Q_eq]
      omega
  · intro i hi
    obtain ⟨hc1, hc2⟩ := hin i hi
    obtain ⟨_, _, hb3⟩ := base_case_multiply_eq i (ha (2 * i)) (ha (2 * i + 1))
      (hb (2 * i)) (hb (2 * i + 1))
    have hv1 : nttMul a b (2 * i) = (base_case_multiply (a (2 * i)) (a (2 * i + 1))
        (b (2 * i)) (b (2 * i + 1)) i).1 := hc1
    have hv2 : nttMul a b (2 * i + 1) = (base_case_multiply (a (2 * i)) (a (2 * i + 1))
        (b (2 * i)) (b (2 * i + 1)) i).2 := hc2
    constructor
    · rw [hv1, hb3]
      show (((a (2 * i) * b (2 * i) +
        a (2 * i + 1) * (b (2 * i + 1) * gamma i % Q)) % Q : Nat) : Fq) = _
      rw [Q_eq]
      push_cast [ZMod.natCast_mod]
      unfold mgamma
      ring
    · rw [hv2, hb3]
      show (((a (2 * i) * b (2 * i + 1) + a (2 * i + 1) * b (2 * i)) % Q : Nat) : Fq) = _
      rw [Q_eq]
      push_cast [ZMod.natCast_mod]
      ring

/-- C3: applying `ntt_inverse` to the pointwise NTT-domain product (128 base-case
multiplications with twiddles `GAMMA[i]`) of `ntt p` and `ntt q` yields the product
of `p` and `q` in `R_q = Z_q[X]/(X^256+1)`, the schoolbook convolution with a sign
flip on exponents wrapping past 256. -/
theorem ntt_mul_homomorphism (p q : Nat → Nat) (hp : ∀ n, p n < Q) (hq : ∀ n, q n < Q) :
    ∀ i, i < 256 → ntt_inverse (nttMul (ntt p) (ntt q)) i = polyMul p q i := by
  obtain ⟨hA, hAm⟩ := ntt_char p hp
  obtain ⟨hB, hBm⟩ := ntt_char q hq
  obtain ⟨hNl, hNv⟩ := nttMul_cast (ntt p) (ntt q) hA hB
  obtain ⟨hIc, hIm⟩ := ntt_inverse_char (nttMul (ntt p) (ntt q)) hNl
  obtain ⟨hPc, hPv⟩ := polyMul_char p q hp hq
  have hrel : ∀ m, m < 256 → ((nttMul (ntt p) (ntt q) m : Nat) : Fq) =
      mathNtt (mathConv (fun n => ((p n : Nat) : Fq)) (fun n => ((q n : Nat) : Fq))) m := by
    intro m hm
    obtain ⟨b, s, rfl, hs⟩ : ∃ b s, m = 2 * b + s ∧ s < 2 :=
      ⟨m / 2, m % 2, by omega, by omega⟩
    have hb : b < 128 := by omega
    have hγ := gamma_pow_128 b hb
    have ht0 : ∀ g : Nat → Fq, mathNtt g (2 * b) = twist (mgamma b) 0 g := by
      intro g
      have hh := mathNtt_twist g b 0 hb (by omega)
      rwa [Nat.add_zero] at hh
    have ht1 : ∀ g : Nat → Fq, mathNtt g (2 * b + 1) = twist (mgamma b) 1 g :=
      fun g => mathNtt_twist g b 1 hb (by omega)
    rcases (by omega : s = 0 ∨ s = 1) with rfl | rfl
    · rw [Nat.add_zero, ht0, twist_conv_even _ hγ, (hNv b hb).1,
        hAm (2 * b), hAm (2 * b + 1), hBm (2 * b), hBm (2 * b + 1),
        ht0, ht0, ht1, ht1]
    · rw [ht1, twist_conv_odd _ hγ, (hNv b hb).2,
        hAm (2 * b), hAm (2 * b + 1), hBm (2 * b), hBm (2 * b + 1),
        ht0, ht0, ht1, ht1]
  have hscale : ∀ z : Fq, ((3303 : Nat) : Fq) * (((128 : Nat) : Fq) * z) = z := by
    intro z
    rw [← mul_assoc, show ((3303 : Nat) : Fq) * ((128 : Nat) : Fq) = 1 from by decide,
      one_mul]
  intro i hi
  apply cast_inj_of_lt (hIc i) (hPc i)
  rw [hIm i, hPv i hi, mathNttInv_congr_lt _ _ hrel i hi, mathNttInv_mathNtt]
  unfold scaleD
  rw [if_pos hi, hscale]

/-- Witness for C3 at the zero polynomials, coefficient 0. -/
theorem ntt_mul_homomorphism_witness :
    ntt_inverse (nttMul (ntt (fun _ => 0)) (ntt (fun _ => 0))) 0 =
      polyMul (fun _ => 0) (fun _ => 0) 0 :=
  ntt_mul_homomorphism (fun _ => 0) (fun _ => 0)
    (fun _ => by show (0 : Nat) < Q; rw [Q_eq]; omega)
    (fun _ => by show (0 : Nat) < Q; rw [Q_eq]; omega) 0 (by omega)

/-- C9: with canonical inputs, every FieldElement produced by the arithmetic
operations of sections 4.1-4.5 (field add/sub/mul, polynomial add/sub, scalar
multiply, base-case multiply, pointwise NTT-domain multiply, forward NTT, inverse
NTT) and by `byte_decode` at every supported width is canonical (`< 3329`). -/
theorem outputs_canonical (a b c a0 a1 b0 b1 i0 d : Nat) (p q B : Nat → Nat)
    (ha : a < Q) (hb : b < Q) (hc : c < Q)
    (ha0 : a0 < Q) (ha1 : a1 < Q) (hb0 : b0 < Q) (hb1 : b1 < Q)
    (hp : ∀ n, p n < Q) (hq : ∀ n, q n < Q)
    (hd : d = 1 ∨ d = 4 ∨ d = 5 ∨ d = 6 ∨ d = 10 ∨ d = 11 ∨ d = 12) :
    fieldAdd a b < Q ∧ fieldSub a b < Q ∧ fieldMul a b < Q ∧
    (∀ i, polyAdd p q i < Q) ∧ (∀ i, polySub p q i < Q) ∧
    (∀ i, scalarPolyMul c p i < Q) ∧
    (base_case_multiply a0 a1 b0 b1 i0).1 < Q ∧
    (base_case_multiply a0 a1 b0 b1 i0).2 < Q ∧
    (∀ i, nttMul p q i < Q) ∧
    (∀ i, ntt p i < Q) ∧ (∀ i, ntt_inverse p i < Q) ∧
    (∀ i, byte_decode d B i < Q) := by
  have hQpos : 0 < Q := by rw [Q_eq]; omega
  obtain ⟨_, _, hbcm⟩ := base_case_multiply_eq i0 ha0 ha1 hb0 hb1
  refine ⟨fieldAdd_lt ha hb, fieldSub_lt ha hb, fieldMul_lt ha hb,
    fun i => fieldAdd_lt (hp i) (hq i), fun i => fieldSub_lt (hp i) (hq i),
    fun i => fieldMul_lt hc (hp i), ?_, ?_,
    (nttMul_cast p q hp hq).1, (ntt_char p hp).1, (ntt_inverse_char p hp).1, ?_⟩
  · rw [hbcm]
    exact Nat.mod_lt _ hQpos
  · rw [hbcm]
    exact Nat.mod_lt _ hQpos
  · intro i
    have hlt := byte_decode_lt d B i
    rcases hd with rfl | rfl | rfl | rfl | rfl | rfl | rfl
    · rw [if_neg (by omega)] at hlt
      norm_num at hlt
      rw [Q_eq]
      omega
    · rw [if_neg (by omega)] at hlt
      norm_num at hlt
      rw [Q_eq]
      omega
    · rw [if_neg (by omega)] at hlt
      norm_num at hlt
      rw [Q_eq]
      omega
    · rw [if_neg (by omega)] at hlt
      norm_num at hlt
      rw [Q_eq]
      omega
    · rw [if_neg (by omega)] at hlt
      norm_num at hlt
      rw [Q_eq]
      omega
    · rw [if_neg (by omega)] at hlt
      norm_num at hlt
      rw [Q_eq]
      omega
    · rw [if_pos rfl] at hlt
      exact hlt

/-- Witness for C9 at all-zero inputs and width 12. -/
theorem outputs_canonical_witness :
    fieldAdd 0 0 < Q ∧ fieldSub 0 0 < Q ∧ fieldMul 0 0 < Q ∧
    (∀ i, polyAdd (fun _ => 0) (fun _ => 0) i < Q) ∧
    (∀ i, polySub (fun _ => 0) (fun _ => 0) i < Q) ∧
    (∀ i, scalarPolyMul 0 (fun _ => 0) i < Q) ∧
    (base_case_multiply 0 0 0 0 0).1 < Q ∧
    (base_case_multiply 0 0 0 0 0).2 < Q ∧
    (∀ i, nttMul (fun _ => 0) (fun _ => 0) i < Q) ∧
    (∀ i, ntt (fun _ => 0) i < Q) ∧ (∀ i, ntt_inverse (fun _ => 0) i < Q) ∧
    (∀ i, byte_decode 12 (fun _ => 0) i < Q) :=
  outputs_canonical 0 0 0 0 0 0 0 0 12 (fun _ => 0) (fun _ => 0) (fun _ => 0)
    (by rw [Q_eq]; omega) (by rw [Q_eq]; omega) (by rw [Q_eq]; omega)
    (by rw [Q_eq]; omega) (by rw [Q_eq]; omega) (by rw [Q_eq]; omega)
    (by rw [Q_eq]; omega)
    (fun _ => by show (0 : Nat) < Q; rw [Q_eq]; omega)
    (fun _ => by show (0 : Nat) < Q; rw [Q_eq]; omega)
    (by norm_num)

end MLKem